import Mathlib

/-!
Verification of the FlowPDF document-templating core: the run-level
substitution engine (`_find_and_replace_in_paragraph`,
`_find_and_replace_in_cell`), the table-loop expansion engine
(`expand_table_loops`), mapping validation (`create_template_mapping` /
`create_mapping`), materialization (`apply_mappings_to_document`) and
schema derivation (`get_template_schema`).

Texts are modelled as `List Char`; Python string operations (`in`,
`.index`, slicing, `.replace`) are embedded as executable functions on
character lists with Python's exact semantics at the call sites.
-/

namespace FlowPDF

/-- The string of a Lean string literal as a character list. -/
def str (s : String) : List Char := s.data

/-- Formatting attributes of a run (python-docx: bold/italic/underline,
font name, font size).  The substitution and expansion engines never
write to these fields. -/
structure Fmt where
  bold : Bool
  italic : Bool
  underline : Bool
  fontName : Option (List Char)
  fontSize : Option (List Char)
deriving Repr, DecidableEq

/-- A run: a unit of uniformly formatted text inside a paragraph/cell. -/
structure Run where
  text : List Char
  fmt : Fmt
deriving Repr, DecidableEq

/-- A dummy run used to totalize always-in-range list indexing. -/
def dRun : Run := ⟨[], ⟨false, false, false, none, none⟩⟩

/-- A paragraph is its ordered list of runs. -/
abbrev Para := List Run

/-- `paragraph.text`: concatenation of the runs' texts in order. -/
def concatText (runs : List Run) : List Char := (runs.map Run.text).flatten

/-- Python `t == s[:len(t)]`: is `t` a leading segment of `s`?  Boolean,
executable version of `t <+: s`. -/
def isPre : List Char → List Char → Bool
  | [], _ => true
  | _ :: _, [] => false
  | a :: as, b :: bs => a == b && isPre as bs

/-- Python `s.find(t)` / `s.index(t)`: offset of the leftmost occurrence
of `t` in `s`, `none` when `t` does not occur.  (`substrIdx t s = some 0`
when `t = []`, as in Python.) -/
def substrIdx (target : List Char) : List Char → Option Nat
  | [] => if isPre target [] then some 0 else none
  | c :: rest =>
    if isPre target (c :: rest) then some 0
    else (substrIdx target rest).map (· + 1)

/-- Python `t in s` (substring containment). -/
def strContains (s target : List Char) : Bool := (substrIdx target s).isSome

/-- The run position map built by `_find_and_replace_in_paragraph`
(lines 112-118): one `(run_start, run_end, idx)` triple per run, with
cumulative character offsets. -/
def runPositionsAux (pos idx : Nat) : List Run → List (Nat × Nat × Nat)
  | [] => []
  | r :: rest =>
    (pos, pos + r.text.length, idx) :: runPositionsAux (pos + r.text.length) (idx + 1) rest

/-- `run_positions` with initial offset and index 0. -/
def runPositions (runs : List Run) : List (Nat × Nat × Nat) := runPositionsAux 0 0 runs

/-- `runs[i].text = t`: replace the text of run `i`, keeping its
formatting; other runs untouched. -/
def setRunText : List Run → Nat → List Char → List Run
  | [], _, _ => []
  | r :: rest, 0, t => ⟨t, r.fmt⟩ :: rest
  | r :: rest, n + 1, t => r :: setRunText rest n t

/-- Lines 129-143 of `_find_and_replace_in_paragraph`: the run surgery
applied once the affected-run list is known to be non-empty.
`firstA` is `affected_runs[0]`, `restA` the remaining affected triples. -/
def applyAffected (runs : List Run) (target repl : List Char) (startOff : Nat)
    (firstA : Nat × Nat × Nat) (restA : List (Nat × Nat × Nat)) : Bool × List Run :=
  let endOff := startOff + target.length
  let lastA := restA.getLastD firstA
  let fs := firstA.1
  let fi := firstA.2.2
  let ls := lastA.1
  let li := lastA.2.2
  let pre := (runs.getD fi dRun).text.take (startOff - fs)
  let suf := (runs.getD li dRun).text.drop (endOff - ls)
  if fi = li then
    (true, setRunText runs fi (pre ++ repl ++ suf))
  else
    let runs1 := setRunText runs fi (pre ++ repl)
    let runs2 := ((firstA :: restA).drop 1).dropLast.foldl
      (fun rs p => setRunText rs p.2.2 []) runs1
    (true, setRunText runs2 li suf)

/-- The branch on the affected-run list (lines 120-143): empty list →
return `False` with no mutation, otherwise do the run surgery. -/
def dispatchAffected (runs : List Run) (target repl : List Char) (startOff : Nat) :
    List (Nat × Nat × Nat) → Bool × List Run
  | [] => (false, runs)
  | firstA :: restA => applyAffected runs target repl startOff firstA restA

/-- Lines 105-143 of `_find_and_replace_in_paragraph`: the part after
the first occurrence of `target` has been located at `startOff`. -/
def findAndReplaceCore (runs : List Run) (target repl : List Char) (startOff : Nat) :
    Bool × List Run :=
  if runs.isEmpty then (false, runs)
  else
    dispatchAffected runs target repl startOff
      ((runPositionsAux 0 0 runs).filter
        (fun p => decide (startOff < p.2.1) && decide (p.1 < startOff + target.length)))

/-- `_find_and_replace_in_paragraph` (docx_parser_service.py, lines
94-143), translated over the run-list model: locate the first occurrence
of `target` in the concatenated text, select the runs whose half-open
offset interval overlaps the match span, and rewrite exactly those runs.
Returns the Python boolean result paired with the resulting run list
(the Python code mutates the paragraph in place). -/
def findAndReplace (runs : List Run) (target repl : List Char) : Bool × List Run :=
  match substrIdx target (concatText runs) with
  | none => (false, runs)
  | some startOff => findAndReplaceCore runs target repl startOff

/-- A table cell: an ordered list of paragraphs. -/
abbrev Cell := List Para

/-- `_find_and_replace_in_cell` (lines 146-151): try the cell's
paragraphs in order, stop at the first successful replacement. -/
def findAndReplaceInCell (cell : Cell) (target repl : List Char) : Bool × Cell :=
  match cell with
  | [] => (false, [])
  | p :: ps =>
    let r := findAndReplace p target repl
    if r.1 then (true, r.2 :: ps)
    else
      let rest := findAndReplaceInCell ps target repl
      (rest.1, p :: rest.2)

/-- Concatenation of all run texts of a cell (over all its paragraphs). -/
def cellConcatText (cell : Cell) : List Char := (cell.map concatText).flatten

/-- Total text length of the first `j` runs: the `current_pos` value the
position-map loop has reached after `j` runs. -/
def prefLen (runs : List Run) (j : Nat) : Nat :=
  ((runs.take j).map (fun r => r.text.length)).sum

/-- What `_find_and_replace_in_paragraph` does to the run list when the
affected block is the index interval `[a, li]`: the out list has the
same length; no run's formatting changes; runs outside `[a, li]` are
untouched; if `a = li` the single affected run's text becomes
`prefix ++ repl ++ suffix`, otherwise run `a` becomes `prefix ++ repl`,
the runs strictly between `a` and `li` are emptied, and run `li` becomes
the suffix. -/
def SubOut (runs : List Run) (target repl : List Char) (startOff a li : Nat)
    (out : List Run) : Prop :=
  out.length = runs.length ∧
  (∀ j, (out.getD j dRun).fmt = (runs.getD j dRun).fmt) ∧
  (∀ j, j < runs.length → (j < a ∨ li < j) → out.getD j dRun = runs.getD j dRun) ∧
  (a = li →
    (out.getD a dRun).text =
      (runs.getD a dRun).text.take (startOff - prefLen runs a) ++ repl ++
      (runs.getD a dRun).text.drop (startOff + target.length - prefLen runs a)) ∧
  (a ≠ li →
    (out.getD a dRun).text = (runs.getD a dRun).text.take (startOff - prefLen runs a) ++ repl ∧
    (∀ j, a < j → j < li → (out.getD j dRun).text = []) ∧
    (out.getD li dRun).text =
      (runs.getD li dRun).text.drop (startOff + target.length - prefLen runs li))

/-! ### Table-loop expansion engine (`expand_table_loops`) -/

/-- A `cell_labels` entry of a table-loop mapping: `col_index` and
`label` are required keys, `original_text` and `field_type` are read
with `.get` defaults. -/
structure CellLabel where
  col_index : Nat
  label : List Char
  original_text : Option (List Char)
  field_type : Option (List Char)
deriving Repr, DecidableEq

/-- A loop item, as the Python code sees it after JSON decoding: either
a dict (modelled with its values already stringified, since the code
only ever uses `str(item.get(label, '')))` on them) or a non-dict
scalar, carried as its `str()` rendering. -/
inductive Item where
  | dict : List (List Char × List Char) → Item
  | scalar : List Char → Item
deriving Repr, DecidableEq

/-- Lines 276-277: a non-dict item is coerced to `{"value": str(item)}`. -/
def normItem : Item → List (List Char × List Char)
  | .dict d => d
  | .scalar s => [(str "value", s)]

/-- `str(item.get(label, ''))` with values already stringified. -/
def itemValue (d : List (List Char × List Char)) (label : List Char) : List Char :=
  (d.lookup label).getD []

/-- The marker token `__LOOP__<var>__<label>__`. -/
def mkMarker (loopVar label : List Char) : List Char :=
  str "__LOOP__" ++ loopVar ++ str "__" ++ label ++ str "__"

/-- Python `s.replace(target, repl)` for a non-empty `target` (the only
call site passes a marker token, which is never empty): replace every
occurrence, scanning left to right without overlap. -/
def replaceAll (target repl : List Char) (s : List Char) : List Char :=
  if target ≠ [] ∧ isPre target s then
    repl ++ replaceAll target repl (s.drop target.length)
  else
    match s with
    | [] => []
    | c :: rest => c :: replaceAll target repl rest
termination_by s.length
decreasing_by
  · rename_i h
    obtain ⟨h1, h2⟩ := h
    simp only [List.length_drop]
    cases target with
    | nil => exact absurd rfl h1
    | cons a as =>
      cases s with
      | nil => simp [isPre] at h2
      | cons b bs =>
        simp only [List.length_cons]
        omega
  · simp

/-- Lines 283-289 of `expand_table_loops`: marker replacement inside
one text leaf of a cloned row (`if t_elem.text:` guard, then for each
`cell_labels` entry, `if marker in text: text = text.replace(marker,
value)`). -/
def replaceMarkers (loopVar : List Char) (cellLabels : List CellLabel)
    (d : List (List Char × List Char)) (t : List Char) : List Char :=
  if t = [] then t
  else cellLabels.foldl (fun txt cl =>
    let marker := mkMarker loopVar cl.label
    if strContains txt marker then replaceAll marker (itemValue d cl.label) txt else txt) t

/-- A table row, modelled as the ordered list of the texts of its
`w:t` leaves; a table is its list of rows. -/
abbrev LRow := List (List Char)

/-- The clone-and-substitute step for one item: deep-copy the template
row (value copy in the functional model) and replace markers in every
text leaf. -/
def expandRowForItem (loopVar : List Char) (cellLabels : List CellLabel) (item : Item)
    (templateRow : LRow) : LRow :=
  templateRow.map (replaceMarkers loopVar cellLabels (normItem item))

/-- The per-mapping body of `expand_table_loops` (lines 254-298) acting
on one table: skip when `items` is empty or the row index is out of
range, else insert one substituted clone per item at the template row's
position and remove the template row. -/
def expandTableLoop (table : List LRow) (dataRowIdx : Nat) (loopVar : List Char)
    (cellLabels : List CellLabel) (items : List Item) : List LRow :=
  if items.isEmpty then table
  else if table.length ≤ dataRowIdx then table
  else
    table.take dataRowIdx ++
      items.map (fun it => expandRowForItem loopVar cellLabels it (table.getD dataRowIdx [])) ++
      table.drop (dataRowIdx + 1)

/-! ### Mapping validation (`create_template_mapping` / `create_mapping`) -/

/-- A submitted mapping body (a JSON object): each recognized key is
present (`some`) or absent (`none`). -/
structure SubmittedMapping where
  mapping_type : Option (List Char)
  paragraph_index : Option Nat
  table_index : Option Nat
  row_index : Option Nat
  col_index : Option Nat
  data_row_index : Option Nat
  loop_variable : Option (List Char)
  original_text : Option (List Char)
  label : Option (List Char)
  cell_labels : Option (List CellLabel)
deriving Repr, DecidableEq

/-- The required-field check of `create_template_mapping`
(designer.py, lines 119-134). -/
def designerAccepts (m : SubmittedMapping) : Bool :=
  let mt := m.mapping_type.getD (str "paragraph")
  if mt = str "paragraph" then
    m.paragraph_index.isSome && m.original_text.isSome && m.label.isSome
  else if mt = str "table_cell" then
    m.table_index.isSome && m.row_index.isSome && m.col_index.isSome &&
      m.original_text.isSome && m.label.isSome
  else if mt = str "table_loop" then
    m.table_index.isSome && m.data_row_index.isSome && m.loop_variable.isSome &&
      m.cell_labels.isSome
  else false

/-- The mapping-type check of `create_mapping`
(template_designer_service.py, lines 95-97); the template-existence
and unpublished-status checks concern the template, not the mapping,
and are taken as satisfied here. -/
def serviceAccepts (m : SubmittedMapping) : Bool :=
  let mt := m.mapping_type.getD (str "paragraph")
  decide (mt = str "paragraph") || decide (mt = str "table_cell") ||
    decide (mt = str "table_loop")

/-- A submitted mapping is accepted when it passes both the API check
and the service check. -/
def mappingAccepted (m : SubmittedMapping) : Bool :=
  designerAccepts m && serviceAccepts m

/-- Presence of a named key in the submitted mapping. -/
def hasField (m : SubmittedMapping) (f : List Char) : Bool :=
  if f = str "paragraph_index" then m.paragraph_index.isSome
  else if f = str "table_index" then m.table_index.isSome
  else if f = str "row_index" then m.row_index.isSome
  else if f = str "col_index" then m.col_index.isSome
  else if f = str "data_row_index" then m.data_row_index.isSome
  else if f = str "loop_variable" then m.loop_variable.isSome
  else if f = str "original_text" then m.original_text.isSome
  else if f = str "label" then m.label.isSome
  else if f = str "cell_labels" then m.cell_labels.isSome
  else false

/-- The variant-required field lists of the three recognized variants
(empty for an unrecognized tag). -/
def requiredFieldNames (mt : List Char) : List (List Char) :=
  if mt = str "paragraph" then
    [str "paragraph_index", str "original_text", str "label"]
  else if mt = str "table_cell" then
    [str "table_index", str "row_index", str "col_index", str "original_text", str "label"]
  else if mt = str "table_loop" then
    [str "table_index", str "data_row_index", str "loop_variable", str "cell_labels"]
  else []

/-- One of the three recognized variant tags. -/
def recognizedVariant (mt : List Char) : Bool :=
  decide (mt = str "paragraph") || decide (mt = str "table_cell") ||
    decide (mt = str "table_loop")

/-- Scalar (paragraph or table-cell) variant tag. -/
def isScalarVariant (mt : List Char) : Bool :=
  decide (mt = str "paragraph") || decide (mt = str "table_cell")

/-- Does a list of column indices contain a duplicate? -/
def dupCols : List Nat → Bool
  | [] => false
  | c :: rest => rest.contains c || dupCols rest

/-- Modelled from the spec wording of the claim (C6): the rejection
predicate the specification describes for `validate(mapping)` — used
only to compare against what the code actually implements. -/
def specRejects (m : SubmittedMapping) : Bool :=
  let mt := m.mapping_type.getD (str "paragraph")
  (!(requiredFieldNames mt).all (hasField m)) ||
  (!recognizedVariant mt) ||
  (isScalarVariant mt && (m.original_text.getD []).isEmpty) ||
  (decide (mt = str "table_loop") &&
    ((m.cell_labels.getD []).isEmpty ||
      dupCols ((m.cell_labels.getD []).map CellLabel.col_index)))

/-! ### Materialization (`apply_mappings_to_document`) -/

/-- A table row of run-bearing cells; a cell is a list of paragraphs. -/
abbrev TRow := List Cell

/-- A table: rows of cells. -/
abbrev TTable := List TRow

/-- The parts of a document the mapping engine touches. -/
structure Doc where
  paragraphs : List Para
  tables : List TTable
deriving Repr, DecidableEq

/-- A stored mapping record, with the fields `apply_mappings_to_document`
reads (`mapping_type` discriminates the three variants). -/
inductive Mapping where
  | para (paragraph_index : Nat) (original_text label : List Char)
  | cell (table_index row_index col_index : Nat) (original_text label : List Char)
  | loop (table_index : Nat) (loop_variable : List Char) (data_row_index : Nat)
      (cell_labels : List CellLabel)
deriving Repr, DecidableEq

/-- `"{{" + label + "}}"`. -/
def jinjaVar (label : List Char) : List Char :=
  str "\x7b\x7b" ++ label ++ str "\x7d\x7d"

def isParaMapping : Mapping → Bool
  | .para _ _ _ => true
  | _ => false

def isCellMapping : Mapping → Bool
  | .cell _ _ _ _ _ => true
  | _ => false

def isLoopMapping : Mapping → Bool
  | .loop _ _ _ _ => true
  | _ => false

/-- Lines 175-182: apply one paragraph mapping; the boolean result of
`_find_and_replace_in_paragraph` is discarded. -/
def applyParaMapping (doc : Doc) : Mapping → Doc
  | .para idx orig label =>
    if idx < doc.paragraphs.length then
      ⟨doc.paragraphs.set idx
        (findAndReplace (doc.paragraphs.getD idx []) orig (jinjaVar label)).2,
       doc.tables⟩
    else doc
  | _ => doc

/-- Lines 185-197: apply one table-cell mapping; the boolean result of
`_find_and_replace_in_cell` is discarded. -/
def applyCellMapping (doc : Doc) : Mapping → Doc
  | .cell ti ri ci orig label =>
    if ti < doc.tables.length then
      let table := doc.tables.getD ti []
      if ri < table.length ∧ ci < (table.getD ri []).length then
        let cell := (table.getD ri []).getD ci []
        let cell' := (findAndReplaceInCell cell orig (jinjaVar label)).2
        ⟨doc.paragraphs, doc.tables.set ti (table.set ri ((table.getD ri []).set ci cell'))⟩
      else doc
    else doc
  | _ => doc

/-- Lines 226-230: when the cell label has no `original_text`, the
first run of every run-bearing paragraph of the cell becomes the
marker and the remaining runs are emptied. -/
def markPara (marker : List Char) : Para → Para
  | [] => []
  | r :: rest => ⟨marker, r.fmt⟩ :: rest.map (fun r' => ⟨[], r'.fmt⟩)

/-- Lines 203-230: write `__LOOP__` markers into the data row of one
table-loop mapping. -/
def applyLoopMarkers (doc : Doc) : Mapping → Doc
  | .loop ti loopVar dri cls =>
    if ti < doc.tables.length then
      let table := doc.tables.getD ti []
      if dri < table.length then
        let row' := cls.foldl (fun row cl =>
          if cl.col_index < row.length then
            let c := row.getD cl.col_index []
            let marker := mkMarker loopVar cl.label
            let c' := if (cl.original_text.getD []) ≠ [] then
                (findAndReplaceInCell c (cl.original_text.getD []) marker).2
              else c.map (markPara marker)
            row.set cl.col_index c'
          else row) (table.getD dri [])
        ⟨doc.paragraphs, doc.tables.set ti (table.set dri row')⟩
      else doc
    else doc
  | _ => doc

/-- `apply_mappings_to_document` (lines 158-233): split the mappings by
type, apply each group in order, save, and return `True` — the
per-mapping substitution booleans are never propagated. -/
def applyMappings (doc : Doc) (mappings : List Mapping) : Bool × Doc :=
  let paraMs := mappings.filter isParaMapping
  let cellMs := mappings.filter isCellMapping
  let loopMs := mappings.filter isLoopMapping
  let d1 := paraMs.foldl applyParaMapping doc
  let d2 := cellMs.foldl applyCellMapping d1
  let d3 := loopMs.foldl applyLoopMarkers d2
  (true, d3)

/-! ### Schema derivation (`get_template_schema`) -/

/-- A `sub_fields` entry of an array schema field. -/
structure SubField where
  name : List Char
  ftype : List Char
  original_text : List Char
deriving Repr, DecidableEq

/-- One derived schema field; scalar fields carry no `sub_fields` key. -/
structure SchemaField where
  name : List Char
  ftype : List Char
  required : Bool
  original_text : List Char
  sub_fields : Option (List SubField)
deriving Repr, DecidableEq

/-- A stored mapping row as `get_template_schema` reads it. -/
structure RegMapping where
  mapping_type : Option (List Char)
  label : List Char
  field_type : Option (List Char)
  required : Option Bool
  original_text : Option (List Char)
  loop_variable : List Char
  cell_labels : List CellLabel
deriving Repr, DecidableEq

def subFieldOf (cl : CellLabel) : SubField :=
  ⟨cl.label, cl.field_type.getD (str "string"), cl.original_text.getD []⟩

/-- Lines 181-186: the field emitted for a scalar mapping. -/
def scalarFieldOf (m : RegMapping) : SchemaField :=
  ⟨m.label, m.field_type.getD (str "string"), m.required.getD true,
    m.original_text.getD [], none⟩

def natToChars (n : Nat) : List Char := (Nat.repr n).data

/-- Lines 197-203: the field emitted for a table-loop mapping. -/
def loopFieldOf (m : RegMapping) : SchemaField :=
  ⟨m.loop_variable, str "array", true,
    str "Table loop (" ++ natToChars m.cell_labels.length ++ str " columns)",
    some (m.cell_labels.map subFieldOf)⟩

def isScalarType (m : RegMapping) : Bool :=
  let mt := m.mapping_type.getD (str "paragraph")
  decide (mt = str "paragraph") || decide (mt = str "table_cell")

def isLoopType (m : RegMapping) : Bool :=
  decide (m.mapping_type.getD (str "paragraph") = str "table_loop")

/-- The field-building loop of `get_template_schema` (lines 170-203),
with `seen` the `seen_labels` set and `fields` the accumulator. -/
def deriveFieldsAux : List RegMapping → List (List Char) → List SchemaField → List SchemaField
  | [], _, fields => fields
  | m :: rest, seen, fields =>
    let mt := m.mapping_type.getD (str "paragraph")
    if mt = str "paragraph" ∨ mt = str "table_cell" then
      if m.label ∈ seen then deriveFieldsAux rest seen fields
      else deriveFieldsAux rest (m.label :: seen) (fields ++ [scalarFieldOf m])
    else if mt = str "table_loop" then
      deriveFieldsAux rest seen (fields ++ [loopFieldOf m])
    else
      deriveFieldsAux rest seen fields

/-- The `fields` list of the derived schema. -/
def deriveFields (mappings : List RegMapping) : List SchemaField :=
  deriveFieldsAux mappings [] []

/-- First-occurrence deduplication by scalar label, written from the
spec's words ("first occurrence wins") for comparison with the code. -/
def dedupFirstByLabel : List RegMapping → List (List Char) → List RegMapping
  | [], _ => []
  | m :: rest, seen =>
    if m.label ∈ seen then dedupFirstByLabel rest seen
    else m :: dedupFirstByLabel rest (m.label :: seen)

/-! ### Facts about the string primitives -/

theorem infixOfPre {α : Type} {l₁ l₂ : List α} (h : l₁ <+: l₂) : l₁ <:+: l₂ :=
  List.IsPrefix.isInfix h

theorem infixOfSuf {α : Type} {l₁ l₂ : List α} (h : l₁ <:+ l₂) : l₁ <:+: l₂ :=
  List.IsSuffix.isInfix h

theorem infixTrans {α : Type} {l₁ l₂ l₃ : List α} (h1 : l₁ <:+: l₂) (h2 : l₂ <:+: l₃) :
    l₁ <:+: l₃ :=
  List.IsInfix.trans h1 h2

theorem isPre_iff : ∀ {t s : List Char}, isPre t s = true ↔ t <+: s
  | [], s => by simp [isPre]
  | _ :: _, [] => by simp [isPre]
  | a :: as, b :: bs => by
    rw [List.cons_prefix_cons]
    simp only [isPre, Bool.and_eq_true, beq_iff_eq]
    rw [isPre_iff (t := as) (s := bs)]

theorem substrIdx_le : ∀ {s : List Char} {k : Nat}, substrIdx t s = some k → k ≤ s.length
  | [], k, h => by
    simp only [substrIdx] at h
    split at h
    · simp_all
    · exact absurd h (by simp)
  | c :: rest, k, h => by
    simp only [substrIdx] at h
    split at h
    · injection h with h
      subst h
      exact Nat.zero_le _
    · rcases Option.map_eq_some'.1 h with ⟨k', hk', rfl⟩
      simpa using Nat.succ_le_succ (substrIdx_le hk')

theorem substrIdx_spec : ∀ {s : List Char} {k : Nat}, substrIdx t s = some k →
    isPre t (s.drop k) = true ∧ ∀ q, q < k → isPre t (s.drop q) = false
  | [], k, h => by
    simp only [substrIdx] at h
    split at h
    · rename_i hp
      obtain rfl : k = 0 := by simp_all
      exact ⟨hp, fun q hq => absurd hq (by omega)⟩
    · exact absurd h (by simp)
  | c :: rest, k, h => by
    simp only [substrIdx] at h
    split at h
    · rename_i hp
      obtain rfl : k = 0 := by simp_all
      exact ⟨hp, fun q hq => absurd hq (by omega)⟩
    · rename_i hp
      rcases Option.map_eq_some'.1 h with ⟨k', hk', rfl⟩
      obtain ⟨h1, h2⟩ := substrIdx_spec hk'
      refine ⟨h1, fun q hq => ?_⟩
      match q with
      | 0 => simpa using Bool.of_not_eq_true hp
      | q + 1 => exact h2 q (by omega)

theorem substrIdx_none : ∀ {s : List Char}, substrIdx t s = none →
    ∀ q, isPre t (s.drop q) = false
  | [], h, q => by
    simp only [substrIdx] at h
    split at h
    · exact absurd h (by simp)
    · rename_i hp
      simpa [List.drop_nil] using Bool.of_not_eq_true hp
  | c :: rest, h, q => by
    simp only [substrIdx] at h
    split at h
    · exact absurd h (by simp)
    · rename_i hp
      match q with
      | 0 => simpa using Bool.of_not_eq_true hp
      | q + 1 =>
        have := Option.map_eq_none'.1 h
        exact substrIdx_none this q

theorem substrIdx_isSome_iff {t s : List Char} : (substrIdx t s).isSome ↔ t <:+: s := by
  constructor
  · intro h
    rcases Option.isSome_iff_exists.1 h with ⟨k, hk⟩
    have h1 := (substrIdx_spec hk).1
    exact infixTrans (infixOfPre (isPre_iff.1 h1)) (infixOfSuf (List.drop_suffix k s))
  · rintro ⟨u, v, rfl⟩
    rcases h : substrIdx t (u ++ t ++ v) with _ | k
    · have h1 := substrIdx_none h u.length
      rw [List.append_assoc, List.drop_left] at h1
      have h2 : isPre t (t ++ v) = true := isPre_iff.2 ⟨v, rfl⟩
      simp_all
    · simp

theorem strContains_iff {s t : List Char} : strContains s t = true ↔ t <:+: s := by
  rw [strContains, substrIdx_isSome_iff]

theorem substrIdx_nil_left (s : List Char) : substrIdx [] s = some 0 := by
  cases s <;> simp [substrIdx, isPre]

theorem substrIdx_add_length_le {t s : List Char} {k : Nat}
    (h : substrIdx t s = some k) : k + t.length ≤ s.length := by
  have h1 := (substrIdx_spec h).1
  have h2 := (isPre_iff.1 h1).length_le
  have h3 := substrIdx_le h
  rw [List.length_drop] at h2
  omega

/-! ### Cumulative run offsets -/

theorem prefLen_zero (runs : List Run) : prefLen runs 0 = 0 := rfl

theorem prefLen_nil (j : Nat) : prefLen [] j = 0 := by simp [prefLen]

theorem prefLen_cons_succ (r : Run) (rest : List Run) (j : Nat) :
    prefLen (r :: rest) (j + 1) = r.text.length + prefLen rest j := by
  simp [prefLen]

theorem prefLen_length_eq : ∀ (runs : List Run),
    prefLen runs runs.length = (concatText runs).length
  | [] => rfl
  | r :: rest => by
    rw [List.length_cons, prefLen_cons_succ, prefLen_length_eq rest]
    simp [concatText]

theorem prefLen_mono : ∀ (runs : List Run) {j k : Nat}, j ≤ k →
    prefLen runs j ≤ prefLen runs k
  | [], _, _, _ => by simp [prefLen_nil]
  | _ :: _, 0, _, _ => by rw [prefLen_zero]; exact Nat.zero_le _
  | r :: rest, j + 1, k + 1, h => by
    rw [prefLen_cons_succ, prefLen_cons_succ]
    exact Nat.add_le_add_left (prefLen_mono rest (Nat.le_of_succ_le_succ h)) _

theorem prefLen_stable : ∀ (runs : List Run) {j : Nat}, runs.length ≤ j →
    prefLen runs j = prefLen runs runs.length
  | [], _, _ => by simp [prefLen_nil]
  | r :: rest, j + 1, h => by
    rw [prefLen_cons_succ, List.length_cons, prefLen_cons_succ,
      prefLen_stable rest (Nat.le_of_succ_le_succ h)]

theorem prefLen_le (runs : List Run) (j : Nat) :
    prefLen runs j ≤ (concatText runs).length := by
  rcases Nat.le_total j runs.length with h | h
  · rw [← prefLen_length_eq]; exact prefLen_mono runs h
  · rw [prefLen_stable runs h, prefLen_length_eq]

theorem prefLen_succ_getD : ∀ (runs : List Run) {j : Nat}, j < runs.length →
    prefLen runs (j + 1) = prefLen runs j + ((runs.getD j dRun).text).length
  | r :: rest, 0, _ => by simp [prefLen_cons_succ, prefLen_zero]
  | r :: rest, j + 1, h => by
    rw [prefLen_cons_succ, prefLen_cons_succ,
      prefLen_succ_getD rest (Nat.lt_of_succ_lt_succ h), List.getD_cons_succ]
    omega

theorem runPositionsAux_eq : ∀ (runs : List Run) (pos idx : Nat),
    runPositionsAux pos idx runs = (List.range runs.length).map
      (fun j => (pos + prefLen runs j, pos + prefLen runs (j + 1), idx + j))
  | [], pos, idx => by simp [runPositionsAux]
  | r :: rest, pos, idx => by
    rw [runPositionsAux, runPositionsAux_eq rest (pos + r.text.length) (idx + 1),
      List.length_cons, List.range_succ_eq_map, List.map_cons, List.map_map]
    refine congrArg₂ _ ?_ (List.map_congr_left fun j _ => ?_)
    · simp [prefLen_zero, prefLen_cons_succ, prefLen_nil]
    · simp only [Function.comp_apply, Nat.succ_eq_add_one, prefLen_cons_succ, Prod.mk.injEq]
      omega

/-! ### `setRunText` -/

theorem setRunText_ge : ∀ (rs : List Run) {i : Nat} (t), rs.length ≤ i →
    setRunText rs i t = rs
  | [], _, _, _ => rfl
  | r :: rest, i + 1, t, h => by
    rw [setRunText, setRunText_ge rest t (Nat.le_of_succ_le_succ h)]

theorem setRunText_length : ∀ (rs : List Run) (i : Nat) (t),
    (setRunText rs i t).length = rs.length
  | [], _, _ => rfl
  | _ :: _, 0, _ => rfl
  | r :: rest, i + 1, t => by
    simp [setRunText, setRunText_length rest i t]

theorem setRunText_getD_ne : ∀ (rs : List Run) {i j : Nat} (t d), j ≠ i →
    (setRunText rs i t).getD j d = rs.getD j d
  | [], _, _, _, _, _ => rfl
  | r :: rest, 0, 0, t, d, h => absurd rfl h
  | r :: rest, 0, j + 1, t, d, _ => rfl
  | r :: rest, i + 1, 0, t, d, _ => rfl
  | r :: rest, i + 1, j + 1, t, d, h => by
    rw [setRunText, List.getD_cons_succ, List.getD_cons_succ]
    exact setRunText_getD_ne rest t d (fun hji => h (by omega))

theorem setRunText_getD_lt : ∀ (rs : List Run) {i : Nat} (t d), i < rs.length →
    (setRunText rs i t).getD i d = ⟨t, (rs.getD i d).fmt⟩
  | r :: rest, 0, t, d, _ => rfl
  | r :: rest, i + 1, t, d, h => by
    rw [setRunText, List.getD_cons_succ, List.getD_cons_succ]
    exact setRunText_getD_lt rest t d (Nat.lt_of_succ_lt_succ h)

theorem setRunText_fmt (rs : List Run) (i : Nat) (t : List Char) (j : Nat) :
    ((setRunText rs i t).getD j dRun).fmt = (rs.getD j dRun).fmt := by
  by_cases hj : j = i
  · subst hj
    by_cases hi : j < rs.length
    · rw [setRunText_getD_lt rs t dRun hi]
    · rw [setRunText_ge rs t (by omega)]
  · rw [setRunText_getD_ne rs t dRun hj]

/-! ### The clearing fold over the middle affected runs -/

theorem foldClear_length : ∀ (js : List Nat) (rs : List Run),
    (js.foldl (fun rs i => setRunText rs i []) rs).length = rs.length
  | [], _ => rfl
  | i :: is, rs => by
    rw [List.foldl_cons, foldClear_length is _, setRunText_length]

theorem foldClear_getD_notMem : ∀ (js : List Nat) (rs : List Run) {j : Nat} (d),
    j ∉ js → ((js.foldl (fun rs i => setRunText rs i []) rs).getD j d) = rs.getD j d
  | [], _, _, _, _ => rfl
  | i :: is, rs, j, d, h => by
    rw [List.foldl_cons, foldClear_getD_notMem is _ d (fun hm => h (List.mem_cons_of_mem i hm)),
      setRunText_getD_ne rs [] d (fun hji => h (by rw [hji]; exact List.mem_cons_self i is))]

theorem foldClear_fmt : ∀ (js : List Nat) (rs : List Run) (j : Nat),
    (((js.foldl (fun rs i => setRunText rs i []) rs).getD j dRun)).fmt =
      (rs.getD j dRun).fmt
  | [], _, _ => rfl
  | i :: is, rs, j => by
    rw [List.foldl_cons, foldClear_fmt is _ j, setRunText_fmt]

theorem foldClear_getD_mem : ∀ (js : List Nat) (rs : List Run) {j : Nat},
    j ∈ js → j < rs.length →
    ((js.foldl (fun rs i => setRunText rs i []) rs).getD j dRun).text = []
  | i :: is, rs, j, hmem, hlt => by
    rw [List.foldl_cons]
    by_cases hj : j ∈ is
    · exact foldClear_getD_mem is _ hj (by rw [setRunText_length]; exact hlt)
    · obtain rfl : j = i := (List.mem_cons.1 hmem).resolve_right hj
      rw [foldClear_getD_notMem is _ dRun hj, setRunText_getD_lt rs [] dRun hlt]

/-! ### Sorted lists of naturals -/

theorem sorted_lt_eq_of_mem_iff : ∀ {l₁ l₂ : List Nat}, l₁.Pairwise (· < ·) →
    l₂.Pairwise (· < ·) → (∀ x, x ∈ l₁ ↔ x ∈ l₂) → l₁ = l₂
  | [], [], _, _, _ => rfl
  | [], b :: l₂, _, _, h => absurd ((h b).2 (List.mem_cons_self b l₂)) (List.not_mem_nil b)
  | a :: l₁, [], _, _, h => absurd ((h a).1 (List.mem_cons_self a l₁)) (List.not_mem_nil a)
  | a :: l₁, b :: l₂, h₁, h₂, h => by
    rw [List.pairwise_cons] at h₁ h₂
    have hab : a = b := by
      have ha := (h a).1 (List.mem_cons_self a l₁)
      have hb := (h b).2 (List.mem_cons_self b l₂)
      rcases List.mem_cons.1 ha with h' | h'
      · exact h'
      · rcases List.mem_cons.1 hb with h'' | h''
        · exact h''.symm
        · exact absurd (h₂.1 a h') (by have := h₁.1 b h''; omega)
    subst hab
    refine congrArg _ (sorted_lt_eq_of_mem_iff h₁.2 h₂.2 fun x => ⟨fun hx => ?_, fun hx => ?_⟩)
    · have := h₁.1 x hx
      rcases List.mem_cons.1 ((h x).1 (List.mem_cons_of_mem a hx)) with h' | h'
      · omega
      · exact h'
    · have := h₂.1 x hx
      rcases List.mem_cons.1 ((h x).2 (List.mem_cons_of_mem a hx)) with h' | h'
      · omega
      · exact h'

theorem getLastD_map_comm (g : Nat → Nat × Nat × Nat) : ∀ (l : List Nat) (a : Nat),
    (l.map g).getLastD (g a) = g (l.getLastD a)
  | [], _ => rfl
  | b :: l, a => by
    rw [List.map_cons, List.getLastD_cons, List.getLastD_cons, getLastD_map_comm g l b]

theorem getLastD_range' : ∀ (m s a : Nat), (List.range' s (m + 1)).getLastD a = s + m
  | 0, s, a => rfl
  | m + 1, s, a => by
    rw [List.range'_succ, List.getLastD_cons, getLastD_range' m (s + 1) s]
    omega

theorem getLastD_mem : ∀ (l : List Nat) (a : Nat), l.getLastD a ∈ a :: l
  | [], _ => List.mem_cons_self _ _
  | b :: l, a => by
    rw [List.getLastD_cons]
    exact List.mem_cons_of_mem a (getLastD_mem l b)

theorem le_getLastD_of_pairwise : ∀ {l : List Nat} {a : Nat},
    (a :: l).Pairwise (· < ·) → ∀ x ∈ a :: l, x ≤ l.getLastD a
  | [], a, _, x, hx => by
    obtain rfl : x = a := by simpa using hx
    simp [List.getLastD]
  | b :: l, a, h, x, hx => by
    rw [List.getLastD_cons]
    rw [List.pairwise_cons] at h
    rcases List.mem_cons.1 hx with rfl | hx'
    · have hab := h.1 b (List.mem_cons_self b l)
      have := le_getLastD_of_pairwise h.2 b (List.mem_cons_self b l)
      omega
    · exact le_getLastD_of_pairwise h.2 x hx'

theorem dropLast_range' : ∀ (m s : Nat), (List.range' s (m + 1)).dropLast = List.range' s m
  | 0, s => rfl
  | m + 1, s => by
    have h1 : List.range' s (m + 1 + 1) = s :: (s + 1) :: List.range' (s + 1 + 1) m := by
      rw [List.range'_succ, List.range'_succ]
    rw [h1, List.dropLast_cons₂, ← List.range'_succ, dropLast_range' m (s + 1),
      ← List.range'_succ]

/-! ### Normal form of the affected-run list -/

/-- When a non-empty `target` occurs at `startOff` in the concatenated
text, the affected-run list computed by `_find_and_replace_in_paragraph`
is the contiguous block of position triples for the run indices `a..li`,
where a run `j` is affected iff its half-open interval
`[prefLen j, prefLen (j+1))` overlaps `[startOff, startOff+|target|)`. -/
theorem affected_normal_form (runs : List Run) (startOff tlen : Nat)
    (ht : 1 ≤ tlen) (hocc : startOff + tlen ≤ (concatText runs).length) :
    ∃ a li, a ≤ li ∧ li < runs.length ∧
      ((runPositionsAux 0 0 runs).filter
          (fun p => decide (startOff < p.2.1) && decide (p.1 < startOff + tlen))) =
        (List.range' a (li + 1 - a)).map
          (fun j => (prefLen runs j, prefLen runs (j + 1), j)) ∧
      prefLen runs a ≤ startOff ∧ startOff < prefLen runs (a + 1) ∧
      prefLen runs li < startOff + tlen ∧ startOff + tlen ≤ prefLen runs (li + 1) ∧
      (∀ j, j < runs.length →
        ((startOff < prefLen runs (j + 1) ∧ prefLen runs j < startOff + tlen) ↔
          (a ≤ j ∧ j ≤ li))) := by
  set n := runs.length with hn
  set g : Nat → Nat × Nat × Nat := fun j => (prefLen runs j, prefLen runs (j + 1), j) with hg
  set q : Nat → Bool := fun j =>
    decide (startOff < prefLen runs (j + 1)) && decide (prefLen runs j < startOff + tlen)
    with hq
  have hlen : prefLen runs n = (concatText runs).length := prefLen_length_eq runs
  have hn1 : 1 ≤ n := by
    rcases Nat.eq_zero_or_pos n with h0 | h0
    · exfalso
      have hre : runs = [] := List.length_eq_zero.1 (by omega)
      rw [hre] at hocc
      simp [concatText] at hocc
      omega
    · exact h0
  -- the filter over the position map is the image of a filter over indices
  have hfm : (runPositionsAux 0 0 runs).filter
      (fun p => decide (startOff < p.2.1) && decide (p.1 < startOff + tlen)) =
      ((List.range n).filter q).map g := by
    rw [runPositionsAux_eq, List.filter_map]
    have h1 : (fun j => (0 + prefLen runs j, 0 + prefLen runs (j + 1), 0 + j)) = g := by
      funext j
      simp [hg]
    rw [h1]
    rfl
  -- existence of an affected index
  have hex : ∃ j, startOff < prefLen runs (j + 1) := by
    refine ⟨n - 1, ?_⟩
    have : n - 1 + 1 = n := by omega
    rw [this, hlen]
    omega
  set j0 := Nat.find hex with hj0
  have hj0P : startOff < prefLen runs (j0 + 1) := Nat.find_spec hex
  have hj0lt : j0 < n := by
    have : j0 ≤ n - 1 := Nat.find_min' hex (by
      have : n - 1 + 1 = n := by omega
      rw [this, hlen]; omega)
    omega
  have hj0le : prefLen runs j0 ≤ startOff := by
    rcases Nat.eq_zero_or_pos j0 with h0 | h0
    · rw [h0, prefLen_zero]; omega
    · have hmin := Nat.find_min hex (show j0 - 1 < j0 by omega)
      have : j0 - 1 + 1 = j0 := by omega
      rw [this] at hmin
      omega
  have hq0 : q j0 = true := by
    simp only [hq, Bool.and_eq_true, decide_eq_true_eq]
    omega
  have hmemJ : ∀ x, x ∈ (List.range n).filter q ↔ x < n ∧ q x = true := by
    intro x
    rw [List.mem_filter, List.mem_range]
  have hJne : (List.range n).filter q ≠ [] := by
    intro hcon
    have := (hmemJ j0).2 ⟨hj0lt, hq0⟩
    rw [hcon] at this
    exact List.not_mem_nil _ this
  have hJsorted : ((List.range n).filter q).Pairwise (· < ·) :=
    (List.pairwise_lt_range n).filter q
  obtain ⟨a, J', hJ⟩ := List.exists_cons_of_ne_nil hJne
  set li := J'.getLastD a with hli
  have haJ : a ∈ (List.range n).filter q := by rw [hJ]; exact List.mem_cons_self a J'
  have hliJ : li ∈ (List.range n).filter q := by
    rw [hJ]; exact getLastD_mem J' a
  have hleast : ∀ x ∈ (List.range n).filter q, a ≤ x := by
    intro x hx
    rw [hJ] at hx hJsorted
    rw [List.pairwise_cons] at hJsorted
    rcases List.mem_cons.1 hx with rfl | hx'
    · exact le_refl x
    · exact Nat.le_of_lt (hJsorted.1 x hx')
  have hgreatest : ∀ x ∈ (List.range n).filter q, x ≤ li := by
    intro x hx
    rw [hJ] at hx hJsorted
    exact le_getLastD_of_pairwise hJsorted x hx
  have hqa : q a = true := ((hmemJ a).1 haJ).2
  have han : a < n := ((hmemJ a).1 haJ).1
  have hql : q li = true := ((hmemJ li).1 hliJ).2
  have hlin : li < n := ((hmemJ li).1 hliJ).1
  have hali : a ≤ li := hleast li hliJ
  simp only [hq, Bool.and_eq_true, decide_eq_true_eq] at hqa hql
  -- membership in J is exactly the interval [a, li]
  have hmem_iff : ∀ x, x ∈ (List.range n).filter q ↔ a ≤ x ∧ x ≤ li := by
    intro x
    constructor
    · intro hx
      exact ⟨hleast x hx, hgreatest x hx⟩
    · rintro ⟨h1, h2⟩
      refine (hmemJ x).2 ⟨by omega, ?_⟩
      simp only [hq, Bool.and_eq_true, decide_eq_true_eq]
      constructor
      · calc startOff < prefLen runs (a + 1) := hqa.1
          _ ≤ prefLen runs (x + 1) := prefLen_mono runs (by omega)
      · calc prefLen runs x ≤ prefLen runs li := prefLen_mono runs h2
          _ < startOff + tlen := hql.2
  have hJrange : (List.range n).filter q = List.range' a (li + 1 - a) := by
    refine sorted_lt_eq_of_mem_iff hJsorted (List.pairwise_lt_range' a (li + 1 - a)) ?_
    intro x
    rw [hmem_iff x, List.mem_range'_1]
    omega
  -- boundary facts
  have haj0 : a = j0 := by
    have h1 : a ≤ j0 := hleast j0 ((hmemJ j0).2 ⟨hj0lt, hq0⟩)
    have h2 : j0 ≤ a := Nat.find_min' hex hqa.1
    omega
  have hfs : prefLen runs a ≤ startOff := haj0 ▸ hj0le
  have hle : startOff + tlen ≤ prefLen runs (li + 1) := by
    rcases Nat.lt_or_ge (li + 1) n with hlt | hge
    · by_contra hcon
      have : li + 1 ∈ (List.range n).filter q := by
        refine (hmemJ _).2 ⟨hlt, ?_⟩
        simp only [hq, Bool.and_eq_true, decide_eq_true_eq]
        have : startOff < prefLen runs (li + 1 + 1) := by
          calc startOff < prefLen runs (li + 1) := hql.1
            _ ≤ prefLen runs (li + 1 + 1) := prefLen_mono runs (by omega)
        omega
      have := hgreatest _ this
      omega
    · calc startOff + tlen ≤ prefLen runs n := by rw [hlen]; exact hocc
        _ ≤ prefLen runs (li + 1) := prefLen_mono runs hge
  refine ⟨a, li, hali, hlin, ?_, hfs, hqa.1, hql.2, hle, ?_⟩
  · rw [hfm, hJrange]
  · intro j hj
    have := hmem_iff j
    rw [hmemJ j] at this
    simp only [hq, Bool.and_eq_true, decide_eq_true_eq] at this
    constructor
    · intro hcond
      exact (this.1 ⟨hj, hcond⟩)
    · intro hint
      exact (this.2 hint).2

/-! ### Per-run characterization of a successful substitution -/

/-- Main characterization: when a non-empty `target` occurs at offset
`startOff` of the concatenated text, `_find_and_replace_in_paragraph`
returns true and performs exactly the run surgery described by `SubOut`
on the contiguous block of overlapping runs. -/
theorem findAndReplace_char (runs : List Run) (target repl : List Char) (startOff : Nat)
    (ht : target ≠ []) (h : substrIdx target (concatText runs) = some startOff) :
    (findAndReplace runs target repl).1 = true ∧
    ∃ a li, a ≤ li ∧ li < runs.length ∧
      prefLen runs a ≤ startOff ∧ startOff < prefLen runs (a + 1) ∧
      prefLen runs li < startOff + target.length ∧
      startOff + target.length ≤ prefLen runs (li + 1) ∧
      (∀ j, j < runs.length → ((startOff < prefLen runs (j + 1) ∧
          prefLen runs j < startOff + target.length) ↔ (a ≤ j ∧ j ≤ li))) ∧
      SubOut runs target repl startOff a li (findAndReplace runs target repl).2 := by
  have htlen : 1 ≤ target.length := by
    cases target with
    | nil => exact absurd rfl ht
    | cons c cs => simp
  have hocc : startOff + target.length ≤ (concatText runs).length :=
    substrIdx_add_length_le h
  obtain ⟨a, li, hali, hlin, hfilter, hfs, hfe, hls, hle, hiff⟩ :=
    affected_normal_form runs startOff target.length htlen hocc
  set g : Nat → Nat × Nat × Nat := fun j => (prefLen runs j, prefLen runs (j + 1), j) with hg
  have hne : runs ≠ [] := by
    intro hcon
    rw [hcon] at hlin
    simp at hlin
  have hie : runs.isEmpty = false := by
    cases runs with
    | nil => exact absurd rfl hne
    | cons r rest => rfl
  have hr : List.range' a (li + 1 - a) = a :: List.range' (a + 1) (li - a) := by
    have h1 : li + 1 - a = (li - a) + 1 := by omega
    rw [h1, List.range'_succ]
  have hfilter' : (runPositionsAux 0 0 runs).filter
      (fun p => decide (startOff < p.2.1) && decide (p.1 < startOff + target.length)) =
      g a :: (List.range' (a + 1) (li - a)).map g := by
    rw [hfilter, hr, List.map_cons]
  have hfr : findAndReplace runs target repl =
      applyAffected runs target repl startOff (g a) ((List.range' (a + 1) (li - a)).map g) := by
    rw [findAndReplace, h]
    show findAndReplaceCore runs target repl startOff = _
    rw [findAndReplaceCore, hie]
    simp only [Bool.false_eq_true, if_false]
    rw [hfilter', dispatchAffected]
  have hlast : ((List.range' (a + 1) (li - a)).map g).getLastD (g a) = g li := by
    rw [getLastD_map_comm]
    rcases Nat.eq_or_lt_of_le hali with rfl | hlt
    · simp
    · have h1 : li - a = (li - a - 1) + 1 := by omega
      rw [h1, getLastD_range']
      exact congrArg g (by omega)
  rw [hfr]
  rw [applyAffected]
  rw [hlast]
  by_cases hal : a = li
  · subst hal
    simp only [if_pos rfl]
    refine ⟨by trivial, a, a, le_refl a, hlin, hfs, hfe, hls, hle, hiff, ?_⟩
    refine ⟨setRunText_length runs a _, fun j => setRunText_fmt runs a _ j, ?_, ?_, ?_⟩
    · intro j _ hj
      exact setRunText_getD_ne runs _ dRun (by omega)
    · intro _
      exact congrArg Run.text (setRunText_getD_lt runs _ dRun hlin)
    · intro hcon
      exact absurd rfl hcon
  · simp only [if_neg hal]
    have hlt : a < li := by omega
    have hm : li - a = (li - a - 1) + 1 := by omega
    set m := li - a - 1 with hmdef
    have hdl : (((g a) :: (List.range' (a + 1) (li - a)).map g).drop 1).dropLast =
        (List.range' (a + 1) m).map g := by
      rw [List.drop_one, List.tail_cons, ← List.map_dropLast, hm, dropLast_range']
    rw [hdl]
    set runs1 := setRunText runs a
      ((runs.getD a dRun).text.take (startOff - prefLen runs a) ++ repl) with hruns1
    have hfold : ((List.range' (a + 1) m).map g).foldl
        (fun rs p => setRunText rs p.2.2 []) runs1 =
        (List.range' (a + 1) m).foldl (fun rs i => setRunText rs i []) runs1 := by
      rw [List.foldl_map]
    rw [hfold]
    set runs2 := (List.range' (a + 1) m).foldl (fun rs i => setRunText rs i []) runs1
      with hruns2
    have hmemjs : ∀ j, j ∈ List.range' (a + 1) m ↔ a < j ∧ j < li := by
      intro j
      rw [List.mem_range'_1]
      omega
    have hlen2 : runs2.length = runs.length := by
      rw [hruns2, foldClear_length, hruns1, setRunText_length]
    refine ⟨by trivial, a, li, hali, hlin, hfs, hfe, hls, hle, hiff, ?_⟩
    refine ⟨?_, ?_, ?_, ?_, ?_⟩
    · rw [setRunText_length, hlen2]
    · intro j
      rw [setRunText_fmt, hruns2, foldClear_fmt, hruns1, setRunText_fmt]
    · intro j hj hout
      rw [setRunText_getD_ne _ _ dRun (by omega), hruns2,
        foldClear_getD_notMem _ _ dRun (by rw [hmemjs]; omega),
        hruns1, setRunText_getD_ne _ _ dRun (by omega)]
    · intro hcon
      exact absurd hcon hal
    · refine fun _ => ⟨?_, ?_, ?_⟩
      · rw [setRunText_getD_ne _ _ dRun (by omega), hruns2,
          foldClear_getD_notMem _ _ dRun (by rw [hmemjs]; omega), hruns1,
          setRunText_getD_lt runs _ dRun (by omega)]
      · intro j hja hjl
        rw [setRunText_getD_ne _ _ dRun (by omega), hruns2]
        exact foldClear_getD_mem _ _ ((hmemjs j).2 ⟨hja, hjl⟩)
          (by rw [hruns1, setRunText_length]; omega)
      · rw [setRunText_getD_lt _ _ dRun (by rw [hlen2]; omega), hruns2,
          foldClear_fmt, hruns1, setRunText_fmt]

/-! ### Concatenation-level consequences -/

theorem getD_eq_getElem_run (l : List Run) (j : Nat) (h : j < l.length) :
    l.getD j dRun = l[j] := by
  rw [List.getD_eq_getElem?_getD, List.getElem?_eq_getElem h, Option.getD_some]

theorem concatText_take : ∀ (runs : List Run) (j : Nat),
    concatText (runs.take j) = (concatText runs).take (prefLen runs j)
  | [], j => by simp [concatText, prefLen_nil]
  | r :: rest, 0 => by simp [concatText, prefLen_zero]
  | r :: rest, j + 1 => by
    rw [List.take_succ_cons, prefLen_cons_succ]
    show concatText (r :: rest.take j) = _
    have h1 : concatText (r :: rest.take j) = r.text ++ concatText (rest.take j) := by
      simp [concatText]
    have h2 : concatText (r :: rest) = r.text ++ concatText rest := by
      simp [concatText]
    rw [h1, h2, List.take_append_eq_append_take,
      List.take_of_length_le (show r.text.length ≤ r.text.length + prefLen rest j by omega),
      show r.text.length + prefLen rest j - r.text.length = prefLen rest j from by omega,
      concatText_take rest j]

theorem concatText_drop : ∀ (runs : List Run) (j : Nat),
    concatText (runs.drop j) = (concatText runs).drop (prefLen runs j)
  | [], j => by simp [concatText, prefLen_nil]
  | r :: rest, 0 => by simp [prefLen_zero]
  | r :: rest, j + 1 => by
    rw [List.drop_succ_cons, prefLen_cons_succ]
    have h2 : concatText (r :: rest) = r.text ++ concatText rest := by
      simp [concatText]
    rw [h2, List.drop_append_eq_append_drop,
      List.drop_of_length_le (show r.text.length ≤ r.text.length + prefLen rest j by omega),
      show r.text.length + prefLen rest j - r.text.length = prefLen rest j from by omega,
      List.nil_append, concatText_drop rest j]

theorem concatText_block : ∀ (k s : Nat) (l : List Run), s + k ≤ l.length →
    ((List.range' s k).map (fun j => (l.getD j dRun).text)).flatten =
      concatText ((l.drop s).take k)
  | 0, s, l, _ => by simp [concatText]
  | k + 1, s, l, h => by
    rw [List.range'_succ, List.map_cons, List.flatten_cons,
      concatText_block k (s + 1) l (by omega)]
    have hs : s < l.length := by omega
    rw [List.drop_eq_getElem_cons hs, List.take_succ_cons, getD_eq_getElem_run l s hs]
    simp [concatText]

theorem concatText_eq_flatten_range (l : List Run) :
    concatText l = ((List.range' 0 l.length).map (fun j => (l.getD j dRun).text)).flatten := by
  rw [concatText_block l.length 0 l (by omega)]
  simp

/-- A successful substitution rewrites the concatenated text from
`full.take startOff ++ full.drop (startOff + |target|)` to
`full.take startOff ++ repl ++ full.drop (startOff + |target|)`:
only the leftmost occurrence is replaced; everything else survives
verbatim. -/
theorem findAndReplace_concat (runs : List Run) (target repl : List Char) (startOff : Nat)
    (ht : target ≠ []) (h : substrIdx target (concatText runs) = some startOff) :
    concatText (findAndReplace runs target repl).2 =
      (concatText runs).take startOff ++ repl ++
      (concatText runs).drop (startOff + target.length) := by
  obtain ⟨-, a, li, hali, hlin, hfs, hfe, hls, hle, -, hout⟩ :=
    findAndReplace_char runs target repl startOff ht h
  obtain ⟨hlen, -, houtside, hsingle, hmulti⟩ := hout
  set out := (findAndReplace runs target repl).2 with hodef
  set full := concatText runs with hfull
  have hn := hlin
  set n := runs.length with hn'
  have hflat := concatText_eq_flatten_range out
  rw [hlen] at hflat
  -- split the index range into [0,a), [a,li], (li, n)
  have hsplit : List.range' 0 n =
      List.range' 0 a ++ List.range' a (li + 1 - a) ++ List.range' (li + 1) (n - (li + 1)) := by
    have h1 : List.range' 0 a ++ List.range' a (li + 1 - a) = List.range' 0 (li + 1) := by
      have h2 := List.range'_append_1 0 a (li + 1 - a)
      rw [Nat.zero_add] at h2
      rw [h2]
      congr 1
      omega
    rw [h1]
    have h3 := List.range'_append_1 0 (li + 1) (n - (li + 1))
    rw [Nat.zero_add] at h3
    rw [h3]
    congr 1
    omega
  rw [hsplit, List.map_append, List.map_append, List.flatten_append, List.flatten_append]
    at hflat
  -- prefix block: untouched
  have hpreblk : ((List.range' 0 a).map (fun j => (out.getD j dRun).text)).flatten =
      full.take (prefLen runs a) := by
    have hcongr : (List.range' 0 a).map (fun j => (out.getD j dRun).text) =
        (List.range' 0 a).map (fun j => (runs.getD j dRun).text) := by
      refine List.map_congr_left fun j hj => ?_
      rw [List.mem_range'_1] at hj
      rw [houtside j (by omega) (by omega)]
    rw [hcongr, concatText_block a 0 runs (by omega), List.drop_zero, concatText_take]
  -- suffix block: untouched
  have hsufblk : ((List.range' (li + 1) (n - (li + 1))).map
      (fun j => (out.getD j dRun).text)).flatten = full.drop (prefLen runs (li + 1)) := by
    have hcongr : (List.range' (li + 1) (n - (li + 1))).map (fun j => (out.getD j dRun).text) =
        (List.range' (li + 1) (n - (li + 1))).map (fun j => (runs.getD j dRun).text) := by
      refine List.map_congr_left fun j hj => ?_
      rw [List.mem_range'_1] at hj
      rw [houtside j (by omega) (by omega)]
    rw [hcongr, concatText_block (n - (li + 1)) (li + 1) runs (by omega),
      List.take_of_length_le (by rw [List.length_drop]), concatText_drop]
  -- middle block: the rewritten text
  have hmidblk : ((List.range' a (li + 1 - a)).map (fun j => (out.getD j dRun).text)).flatten =
      (runs.getD a dRun).text.take (startOff - prefLen runs a) ++ repl ++
      (runs.getD li dRun).text.drop (startOff + target.length - prefLen runs li) := by
    rcases Nat.eq_or_lt_of_le hali with heq | hlt
    · subst heq
      have h1 : a + 1 - a = 1 := by omega
      rw [h1, List.range'_one, List.map_cons, List.map_nil, List.flatten_cons,
        List.flatten_nil, List.append_nil, hsingle rfl]
    · obtain ⟨hA, hB, hC⟩ := hmulti (by omega)
      have hsplit2 : List.range' a (li + 1 - a) =
          a :: (List.range' (a + 1) (li - a - 1) ++ [li]) := by
        have h1 : li + 1 - a = (li - a) + 1 := by omega
        rw [h1, List.range'_succ]
        congr 1
        have h2 : li - a = (li - a - 1) + 1 := by omega
        rw [h2, List.range'_1_concat]
        congr 2
        omega
      rw [hsplit2, List.map_cons, List.flatten_cons, List.map_append, List.flatten_append]
      have hmid0 : ((List.range' (a + 1) (li - a - 1)).map
          (fun j => (out.getD j dRun).text)).flatten = [] := by
        rw [List.flatten_eq_nil_iff]
        intro l hl
        rw [List.mem_map] at hl
        obtain ⟨j, hj, rfl⟩ := hl
        rw [List.mem_range'_1] at hj
        exact hB j (by omega) (by omega)
      rw [hmid0, hA]
      simp only [List.map_cons, List.map_nil, List.flatten_cons, List.flatten_nil,
        List.append_nil, List.nil_append]
      rw [hC]
  rw [hpreblk, hmidblk, hsufblk] at hflat
  -- rewrite the boundary pieces in terms of the full text
  have han : a < n := by omega
  have hsa : prefLen runs (a + 1) = prefLen runs a + (runs.getD a dRun).text.length :=
    prefLen_succ_getD runs han
  have hsl : prefLen runs (li + 1) = prefLen runs li + (runs.getD li dRun).text.length :=
    prefLen_succ_getD runs hlin
  have hdropa : full.drop (prefLen runs a) =
      (runs.getD a dRun).text ++ concatText (runs.drop (a + 1)) := by
    rw [hfull, ← concatText_drop, List.drop_eq_getElem_cons han, ← getD_eq_getElem_run runs a han]
    simp [concatText]
  have hdropl : full.drop (prefLen runs li) =
      (runs.getD li dRun).text ++ concatText (runs.drop (li + 1)) := by
    rw [hfull, ← concatText_drop, List.drop_eq_getElem_cons hlin,
      ← getD_eq_getElem_run runs li hlin]
    simp [concatText]
  have hclaim1 : full.take startOff =
      full.take (prefLen runs a) ++
        (runs.getD a dRun).text.take (startOff - prefLen runs a) := by
    conv_lhs => rw [show startOff = prefLen runs a + (startOff - prefLen runs a) from by omega,
      List.take_add]
    rw [hdropa, List.take_append_eq_append_take,
      show startOff - prefLen runs a - (runs.getD a dRun).text.length = 0 from by omega,
      List.take_zero, List.append_nil]
  have hclaim2 : full.drop (startOff + target.length) =
      (runs.getD li dRun).text.drop (startOff + target.length - prefLen runs li) ++
        full.drop (prefLen runs (li + 1)) := by
    conv_lhs => rw [show startOff + target.length =
        prefLen runs li + (startOff + target.length - prefLen runs li) from by omega,
      ← List.drop_drop]
    rw [hdropl, List.drop_append_eq_append_drop,
      show startOff + target.length - prefLen runs li - (runs.getD li dRun).text.length = 0
        from by omega,
      List.drop_zero, concatText_drop]
  rw [hflat, hclaim1, hclaim2]
  simp [List.append_assoc]

/-! ### Failure cases and the length invariant -/

theorem findAndReplace_none (runs : List Run) (target repl : List Char)
    (h : substrIdx target (concatText runs) = none) :
    findAndReplace runs target repl = (false, runs) := by
  rw [findAndReplace, h]

theorem isEmpty_false_of_ne_nil {runs : List Run} (h : runs ≠ []) :
    runs.isEmpty = false := by
  cases runs with
  | nil => exact absurd rfl h
  | cons r rest => rfl

theorem findAndReplace_empty_target (runs : List Run) (repl : List Char) (h : runs ≠ []) :
    findAndReplace runs [] repl = (false, runs) := by
  rw [findAndReplace, substrIdx_nil_left]
  show findAndReplaceCore runs [] repl 0 = (false, runs)
  rw [findAndReplaceCore, isEmpty_false_of_ne_nil h]
  simp only [Bool.false_eq_true, if_false]
  have hfilter : (runPositionsAux 0 0 runs).filter
      (fun p => decide (0 < p.2.1) && decide (p.1 < 0 + List.length ([] : List Char))) = [] := by
    rw [List.filter_eq_nil_iff]
    intro p _
    simp
  rw [hfilter, dispatchAffected]

theorem findAndReplace_true_shape (runs : List Run) (target repl : List Char)
    (htrue : (findAndReplace runs target repl).1 = true) :
    ∃ s, substrIdx target (concatText runs) = some s ∧ target ≠ [] := by
  rcases hidx : substrIdx target (concatText runs) with _ | s
  · rw [findAndReplace_none _ _ _ hidx] at htrue
    exact absurd htrue (by simp)
  · refine ⟨s, rfl, ?_⟩
    intro hemp
    subst hemp
    by_cases hr : runs = []
    · subst hr
      have hev : findAndReplace [] [] repl = (false, []) := rfl
      rw [hev] at htrue
      exact absurd htrue (by simp)
    · rw [findAndReplace_empty_target runs repl hr] at htrue
      exact absurd htrue (by simp)

/-- The length invariant for a successful paragraph substitution. -/
theorem findAndReplace_length (runs : List Run) (target repl : List Char)
    (h : (findAndReplace runs target repl).1 = true) :
    target.length ≤ (concatText runs).length ∧
    (concatText (findAndReplace runs target repl).2).length =
      (concatText runs).length - target.length + repl.length := by
  obtain ⟨s, hidx, ht⟩ := findAndReplace_true_shape runs target repl h
  have hbound := substrIdx_add_length_le hidx
  have hconcat := findAndReplace_concat runs target repl s ht hidx
  refine ⟨by omega, ?_⟩
  rw [hconcat]
  simp only [List.length_append, List.length_take, List.length_drop]
  omega

/-- The length invariant for a successful cell substitution. -/
theorem findAndReplaceInCell_length : ∀ (cell : Cell) (target repl : List Char),
    (findAndReplaceInCell cell target repl).1 = true →
    target.length ≤ (cellConcatText cell).length ∧
    (cellConcatText (findAndReplaceInCell cell target repl).2).length =
      (cellConcatText cell).length - target.length + repl.length := by
  intro cell
  induction cell with
  | nil =>
    intro target repl h
    exact absurd h (by simp [findAndReplaceInCell])
  | cons p ps ih =>
    intro target repl h
    rw [findAndReplaceInCell] at h ⊢
    by_cases hp : (findAndReplace p target repl).1 = true
    · rw [if_pos hp] at h ⊢
      obtain ⟨hb, hl⟩ := findAndReplace_length p target repl hp
      have hcc : cellConcatText ((findAndReplace p target repl).2 :: ps) =
          concatText (findAndReplace p target repl).2 ++ cellConcatText ps := by
        simp [cellConcatText]
      have hcc2 : cellConcatText (p :: ps) = concatText p ++ cellConcatText ps := by
        simp [cellConcatText]
      rw [hcc, hcc2]
      simp only [List.length_append]
      omega
    · rw [if_neg hp] at h ⊢
      have hrec := ih target repl (by simpa using h)
      have hcc : cellConcatText (p :: (findAndReplaceInCell ps target repl).2) =
          concatText p ++ cellConcatText (findAndReplaceInCell ps target repl).2 := by
        simp [cellConcatText]
      have hcc2 : cellConcatText (p :: ps) = concatText p ++ cellConcatText ps := by
        simp [cellConcatText]
      rw [hcc, hcc2]
      simp only [List.length_append]
      omega

/-! ### `str.replace` and marker replacement -/

theorem replaceAll_no_occur {target repl : List Char} :
    ∀ (s : List Char), ¬ target <:+: s → replaceAll target repl s = s := by
  intro s
  induction s with
  | nil =>
    intro h
    rw [replaceAll.eq_def, if_neg (fun hcon => h (infixOfPre (isPre_iff.1 hcon.2)))]
  | cons c rest ih =>
    intro h
    rw [replaceAll.eq_def, if_neg (fun hcon => h (infixOfPre (isPre_iff.1 hcon.2)))]
    show c :: replaceAll target repl rest = c :: rest
    rw [ih (fun hinf => h (List.infix_cons hinf))]

theorem replaceAll_self {target repl : List Char} (h : target ≠ []) :
    replaceAll target repl target = repl := by
  rw [replaceAll.eq_def, if_pos ⟨h, isPre_iff.2 (List.prefix_refl target)⟩, List.drop_length,
    replaceAll.eq_def, if_neg (fun hcon => h (List.prefix_nil.1 (isPre_iff.1 hcon.2)))]
  show repl ++ [] = repl
  exact List.append_nil repl

theorem mkMarker_ne_nil (v ℓ : List Char) : mkMarker v ℓ ≠ [] := by
  intro h
  have h2 := congrArg List.length h
  simp [mkMarker, str] at h2

/-- Python `str.replace` scans left to right and replaces every
occurrence: when the leftmost occurrence of a non-empty `M` in `s` sits
at offset `p`, the replacement keeps `s.take p`, substitutes `val`, and
continues — without rescanning `val` — in the remainder of `s`. -/
theorem replaceAll_leftmost {M val : List Char} (hM : M ≠ []) :
    ∀ (p : Nat) (s : List Char), M <+: s.drop p →
      (∀ q, q < p → ¬ M <+: s.drop q) →
      replaceAll M val s = s.take p ++ val ++ replaceAll M val (s.drop (p + M.length))
  | 0, s, hpre, _ => by
    rw [replaceAll.eq_def, if_pos ⟨hM, isPre_iff.2 (by simpa using hpre)⟩]
    simp
  | p + 1, s, hpre, hleft => by
    cases s with
    | nil =>
      rw [List.drop_nil] at hpre
      exact absurd (List.prefix_nil.1 hpre) hM
    | cons c rest =>
      rw [replaceAll.eq_def, if_neg (fun hcon => hleft 0 (by omega)
        (by simpa using isPre_iff.1 hcon.2))]
      show c :: replaceAll M val rest = _
      rw [replaceAll_leftmost hM p rest (by simpa using hpre)
        (fun q hq => by simpa using hleft (q + 1) (by omega))]
      have harith : p + 1 + M.length = (p + M.length) + 1 := by omega
      rw [harith]
      simp only [List.take_succ_cons, List.drop_succ_cons, List.cons_append,
        List.append_assoc]

/-- The marker fold skips every cell label whose marker token does not
occur in the text. -/
theorem markerFold_no_listed (v : List Char) (d : List (List Char × List Char)) :
    ∀ (cls : List CellLabel) (t : List Char),
      (∀ cl ∈ cls, ¬ mkMarker v cl.label <:+: t) →
      cls.foldl (fun txt cl =>
        if strContains txt (mkMarker v cl.label) then
          replaceAll (mkMarker v cl.label) (itemValue d cl.label) txt
        else txt) t = t
  | [], t, _ => rfl
  | cl :: rest, t, h => by
    rw [List.foldl_cons, if_neg (fun hc => h cl (List.mem_cons_self cl rest)
      (strContains_iff.1 hc))]
    exact markerFold_no_listed v d rest t
      (fun cl' h' => h cl' (List.mem_cons_of_mem cl h'))

/-- A leaf in which no listed marker token occurs is left unchanged. -/
theorem replaceMarkers_no_listed (v : List Char) (cls : List CellLabel)
    (d : List (List Char × List Char)) (t : List Char)
    (h : ∀ cl ∈ cls, ¬ mkMarker v cl.label <:+: t) :
    replaceMarkers v cls d t = t := by
  rw [replaceMarkers]
  by_cases ht : t = []
  · rw [if_pos ht]
  · rw [if_neg ht]
    exact markerFold_no_listed v d cls t h

/-- When a non-empty `M` occurs in `x ++ M ++ y` only at offset
`x.length`, replace-all substitutes exactly that occurrence. -/
theorem replaceAll_embedded {M val : List Char} (hM : M ≠ []) (x y : List Char)
    (honly : ∀ q, q < (x ++ M ++ y).length → q ≠ x.length →
      ¬ M <+: (x ++ M ++ y).drop q) :
    replaceAll M val (x ++ M ++ y) = x ++ val ++ y := by
  have hMlen : 1 ≤ M.length := by
    cases M with
    | nil => exact absurd rfl hM
    | cons a as => simp
  have hdropx : (x ++ M ++ y).drop x.length = M ++ y := by
    rw [List.append_assoc]
    exact List.drop_left x (M ++ y)
  have hpre : M <+: (x ++ M ++ y).drop x.length := by
    rw [hdropx]
    exact List.prefix_append M y
  have hleft : ∀ q, q < x.length → ¬ M <+: (x ++ M ++ y).drop q := by
    intro q hq
    refine honly q ?_ (by omega)
    simp only [List.length_append]
    omega
  rw [replaceAll_leftmost hM x.length (x ++ M ++ y) hpre hleft]
  have htake : (x ++ M ++ y).take x.length = x := by
    rw [List.append_assoc]
    exact List.take_left x (M ++ y)
  have hdropxy : (x ++ M ++ y).drop (x.length + M.length) = y :=
    List.drop_left' (by rw [List.length_append])
  have hnoy : ¬ M <:+: y := by
    rintro ⟨u, w, hy⟩
    have hylen : y.length = u.length + M.length + w.length := by
      have h3 := congrArg List.length hy
      simp only [List.length_append] at h3
      omega
    refine honly (x.length + M.length + u.length) ?_ (by omega) ?_
    · simp only [List.length_append]
      omega
    · have hsplit : x ++ M ++ y = (x ++ M ++ u) ++ (M ++ w) := by
        rw [← hy]
        simp [List.append_assoc]
      rw [hsplit, List.drop_left' (by rw [List.length_append, List.length_append])]
      exact List.prefix_append M w
  rw [htake, hdropxy, replaceAll_no_occur y hnoy]

/-- The marker fold over a list of cell labels containing an entry for
`cl.label`: every pass with a different label skips (its marker does
not occur), the first pass with `cl.label` substitutes the embedded
marker, and every later pass skips (no listed marker occurs in the
substituted leaf). -/
theorem markerFold_embedded (v : List Char) (d : List (List Char × List Char))
    (clsAll : List CellLabel) (cl : CellLabel) (x y : List Char)
    (honly : ∀ q, q < (x ++ mkMarker v cl.label ++ y).length → q ≠ x.length →
      ¬ mkMarker v cl.label <+: (x ++ mkMarker v cl.label ++ y).drop q)
    (hothers : ∀ cl' ∈ clsAll, cl'.label ≠ cl.label →
      ¬ mkMarker v cl'.label <:+: (x ++ mkMarker v cl.label ++ y))
    (hafter : ∀ cl' ∈ clsAll,
      ¬ mkMarker v cl'.label <:+: (x ++ itemValue d cl.label ++ y)) :
    ∀ (cls' : List CellLabel), (∀ c ∈ cls', c ∈ clsAll) →
      (∃ c ∈ cls', c.label = cl.label) →
      cls'.foldl (fun txt c =>
        if strContains txt (mkMarker v c.label) then
          replaceAll (mkMarker v c.label) (itemValue d c.label) txt
        else txt) (x ++ mkMarker v cl.label ++ y) = x ++ itemValue d cl.label ++ y
  | [], _, hex => absurd hex (by simp)
  | c :: rest, hsub, hex => by
    rw [List.foldl_cons]
    by_cases hc : c.label = cl.label
    · have hguard : strContains (x ++ mkMarker v cl.label ++ y)
          (mkMarker v c.label) = true := by
        rw [hc, strContains_iff]
        exact ⟨x, y, rfl⟩
      rw [if_pos hguard, hc,
        replaceAll_embedded (mkMarker_ne_nil v cl.label) x y honly]
      exact markerFold_no_listed v d rest _
        (fun c' hc' => hafter c' (hsub c' (List.mem_cons_of_mem c hc')))
    · rw [if_neg (fun hg => hothers c (hsub c (List.mem_cons_self c rest)) hc
        (strContains_iff.1 hg))]
      obtain ⟨c₀, hc₀, hlab⟩ := hex
      have hc₀' : c₀ ∈ rest := by
        rcases List.mem_cons.1 hc₀ with rfl | h'
        · exact absurd hlab hc
        · exact h'
      exact markerFold_embedded v d clsAll cl x y honly hothers hafter rest
        (fun c' hc' => hsub c' (List.mem_cons_of_mem c hc')) ⟨c₀, hc₀', hlab⟩

/-- Marker substitution on a leaf `x ++ marker ++ y`: when the listed
label's marker occurs in the leaf only at that position, no other
listed label's marker occurs in the leaf, and no listed marker occurs
in `x ++ value ++ y`, the leaf becomes exactly `x ++ value ++ y`. -/
theorem replaceMarkers_embedded (v : List Char) (d : List (List Char × List Char))
    (cls : List CellLabel) (cl : CellLabel) (x y : List Char) (hcl : cl ∈ cls)
    (honly : ∀ q, q < (x ++ mkMarker v cl.label ++ y).length → q ≠ x.length →
      ¬ mkMarker v cl.label <+: (x ++ mkMarker v cl.label ++ y).drop q)
    (hothers : ∀ cl' ∈ cls, cl'.label ≠ cl.label →
      ¬ mkMarker v cl'.label <:+: (x ++ mkMarker v cl.label ++ y))
    (hafter : ∀ cl' ∈ cls,
      ¬ mkMarker v cl'.label <:+: (x ++ itemValue d cl.label ++ y)) :
    replaceMarkers v cls d (x ++ mkMarker v cl.label ++ y) =
      x ++ itemValue d cl.label ++ y := by
  have hne : (x ++ mkMarker v cl.label ++ y) ≠ [] := by
    intro hcon
    have h2 := congrArg List.length hcon
    simp only [List.length_append, List.length_nil] at h2
    exact mkMarker_ne_nil v cl.label (List.length_eq_zero.1 (by omega))
  rw [replaceMarkers, if_neg hne]
  exact markerFold_embedded v d cls cl x y honly hothers hafter cls
    (fun c hc => hc) ⟨cl, hcl, rfl⟩

/-- Replacement can *splice* surrounding leaf text into a listed marker
token: on the leaf `"__LOOP__x____LOOP__x__a____"` with listed labels
`b, a` (in that order) and values `a ↦ "b"`, `b ↦ "zz"` — every value
free of `"__LOOP__"`, neither listed marker a substring of the other —
the marker fold produces exactly the listed marker `__LOOP__x__b__`.
So value-cleanliness provisos alone cannot guarantee a marker-free
result; a no-marker condition on the substituted leaf is required. -/
theorem spliced_marker_demo :
    replaceMarkers (str "x") [⟨0, str "b", none, none⟩, ⟨1, str "a", none, none⟩]
      [(str "a", str "b"), (str "b", str "zz")] (str "__LOOP__x____LOOP__x__a____") =
      mkMarker (str "x") (str "b") ∧
    (¬ str "__LOOP__" <:+: str "b") ∧ (¬ str "__LOOP__" <:+: str "zz") ∧
    (¬ mkMarker (str "x") (str "b") <:+: mkMarker (str "x") (str "a")) ∧
    (¬ mkMarker (str "x") (str "a") <:+: mkMarker (str "x") (str "b")) := by
  have h1 : replaceMarkers (str "x") [⟨0, str "b", none, none⟩, ⟨1, str "a", none, none⟩]
      [(str "a", str "b"), (str "b", str "zz")] (str "__LOOP__x____LOOP__x__a____") =
      replaceAll (mkMarker (str "x") (str "a")) (str "b")
        (str "__LOOP__x____LOOP__x__a____") := rfl
  have h2 : replaceAll (mkMarker (str "x") (str "a")) (str "b")
      ((str "__LOOP__x____LOOP__x__a____").drop
        (11 + (mkMarker (str "x") (str "a")).length)) =
      (str "__LOOP__x____LOOP__x__a____").drop
        (11 + (mkMarker (str "x") (str "a")).length) :=
    replaceAll_no_occur _ (by decide)
  have h3 : replaceAll (mkMarker (str "x") (str "a")) (str "b")
      (str "__LOOP__x____LOOP__x__a____") = mkMarker (str "x") (str "b") := by
    rw [replaceAll_leftmost (by decide) 11 (str "__LOOP__x____LOOP__x__a____")
      (by decide) (by decide), h2]
    decide
  exact ⟨h1.trans h3, by decide, by decide, by decide, by decide⟩

/-! ### Loop expansion: row counts and row placement -/

theorem getD_append_left' {α : Type} (l₁ l₂ : List α) (i : Nat) (d : α)
    (h : i < l₁.length) : (l₁ ++ l₂).getD i d = l₁.getD i d := by
  rw [List.getD_eq_getElem?_getD, List.getD_eq_getElem?_getD, List.getElem?_append_left h]

theorem getD_append_right' {α : Type} (l₁ l₂ : List α) (i : Nat) (d : α)
    (h : l₁.length ≤ i) : (l₁ ++ l₂).getD i d = l₂.getD (i - l₁.length) d := by
  rw [List.getD_eq_getElem?_getD, List.getD_eq_getElem?_getD, List.getElem?_append_right h]

theorem getD_drop' {α : Type} (l : List α) (m n : Nat) (d : α) :
    (l.drop m).getD n d = l.getD (m + n) d := by
  rw [List.getD_eq_getElem?_getD, List.getD_eq_getElem?_getD, List.getElem?_drop]

theorem expandTableLoop_nil_items (table : List LRow) (dri : Nat) (v : List Char)
    (cls : List CellLabel) : expandTableLoop table dri v cls [] = table := by
  rw [expandTableLoop]
  rfl

theorem expandTableLoop_pos (table : List LRow) (dri : Nat) (v : List Char)
    (cls : List CellLabel) (items : List Item) (hne : items ≠ [])
    (hdri : dri < table.length) :
    expandTableLoop table dri v cls items =
      table.take dri ++
        items.map (fun it => expandRowForItem v cls it (table.getD dri [])) ++
        table.drop (dri + 1) := by
  rw [expandTableLoop, if_neg (by simp [hne]), if_neg (by omega)]

theorem expandTableLoop_length (table : List LRow) (dri : Nat) (v : List Char)
    (cls : List CellLabel) (items : List Item) (hne : items ≠ [])
    (hdri : dri < table.length) :
    (expandTableLoop table dri v cls items).length = table.length - 1 + items.length := by
  rw [expandTableLoop_pos table dri v cls items hne hdri]
  simp only [List.length_append, List.length_map, List.length_take, List.length_drop]
  omega

theorem expandTableLoop_getD_before (table : List LRow) (dri : Nat) (v : List Char)
    (cls : List CellLabel) (items : List Item) (hne : items ≠ [])
    (hdri : dri < table.length) (i : Nat) (hi : i < dri) :
    (expandTableLoop table dri v cls items).getD i [] = table.getD i [] := by
  rw [expandTableLoop_pos table dri v cls items hne hdri, List.append_assoc,
    getD_append_left' _ _ i [] (by rw [List.length_take]; omega),
    List.getD_eq_getElem?_getD, List.getD_eq_getElem?_getD, List.getElem?_take_of_lt hi]

theorem expandTableLoop_getD_inserted (table : List LRow) (dri : Nat) (v : List Char)
    (cls : List CellLabel) (items : List Item) (hne : items ≠ [])
    (hdri : dri < table.length) (j : Nat) (hj : j < items.length) :
    (expandTableLoop table dri v cls items).getD (dri + j) [] =
      expandRowForItem v cls (items.getD j (Item.scalar [])) (table.getD dri []) := by
  rw [expandTableLoop_pos table dri v cls items hne hdri, List.append_assoc,
    getD_append_right' _ _ _ [] (by rw [List.length_take]; omega),
    getD_append_left' _ _ _ [] (by rw [List.length_map, List.length_take]; omega)]
  have h1 : dri + j - (table.take dri).length = j := by
    rw [List.length_take]
    omega
  rw [h1, List.getD_eq_getElem?_getD, List.getElem?_map,
    List.getElem?_eq_getElem (by omega : j < items.length)]
  simp [List.getD_eq_getElem?_getD, List.getElem?_eq_getElem (show j < items.length from hj)]

theorem expandTableLoop_getD_after (table : List LRow) (dri : Nat) (v : List Char)
    (cls : List CellLabel) (items : List Item) (hne : items ≠ [])
    (hdri : dri < table.length) (i : Nat) (hi1 : dri < i) (_hi2 : i < table.length) :
    (expandTableLoop table dri v cls items).getD (i - 1 + items.length) [] =
      table.getD i [] := by
  rw [expandTableLoop_pos table dri v cls items hne hdri, List.append_assoc,
    getD_append_right' _ _ _ [] (by rw [List.length_take]; omega),
    getD_append_right' _ _ _ [] (by rw [List.length_map, List.length_take]; omega)]
  rw [getD_drop']
  congr 1
  simp only [List.length_map, List.length_take]
  omega

/-! ### Leftmost-occurrence facts -/

theorem substrIdx_leftmost {t s : List Char} {k : Nat} (h : substrIdx t s = some k) :
    t <+: s.drop k ∧ ∀ q, q < k → ¬ t <+: s.drop q := by
  obtain ⟨h1, h2⟩ := substrIdx_spec h
  refine ⟨isPre_iff.1 h1, fun q hq hp => ?_⟩
  rw [← isPre_iff, h2 q hq] at hp
  exact Bool.false_ne_true hp

/-! ### Schema derivation -/

theorem deriveFieldsAux_acc : ∀ (ms : List RegMapping) (seen : List (List Char))
    (fields : List SchemaField),
    deriveFieldsAux ms seen fields = fields ++ deriveFieldsAux ms seen []
  | [], seen, fields => by
    rw [deriveFieldsAux, deriveFieldsAux, List.append_nil]
  | m :: rest, seen, fields => by
    rw [deriveFieldsAux, deriveFieldsAux]
    split_ifs with h1 h2 h3
    · exact deriveFieldsAux_acc rest seen fields
    · rw [deriveFieldsAux_acc rest _ (fields ++ [scalarFieldOf m]),
        deriveFieldsAux_acc rest _ ([] ++ [scalarFieldOf m])]
      simp [List.append_assoc]
    · rw [deriveFieldsAux_acc rest _ (fields ++ [loopFieldOf m]),
        deriveFieldsAux_acc rest _ ([] ++ [loopFieldOf m])]
      simp [List.append_assoc]
    · exact deriveFieldsAux_acc rest seen fields

theorem deriveFieldsAux_scalar_part : ∀ (ms : List RegMapping) (seen : List (List Char)),
    (deriveFieldsAux ms seen []).filter (fun f => f.sub_fields.isNone) =
      (dedupFirstByLabel (ms.filter isScalarType) seen).map scalarFieldOf
  | [], seen => rfl
  | m :: rest, seen => by
    rw [deriveFieldsAux]
    have hfc : (m :: rest).filter isScalarType =
        if isScalarType m then m :: rest.filter isScalarType else rest.filter isScalarType :=
      List.filter_cons
    split_ifs with h1 h2 h3
    · -- scalar variant, label already seen
      have hsc : isScalarType m = true := by
        simp only [isScalarType, Bool.or_eq_true, decide_eq_true_eq]
        exact h1
      rw [hfc, if_pos hsc, dedupFirstByLabel, if_pos (by exact h2)]
      exact deriveFieldsAux_scalar_part rest seen
    · -- scalar variant, fresh label
      have hsc : isScalarType m = true := by
        simp only [isScalarType, Bool.or_eq_true, decide_eq_true_eq]
        exact h1
      rw [deriveFieldsAux_acc rest _ ([] ++ [scalarFieldOf m]), hfc, if_pos hsc,
        dedupFirstByLabel, if_neg (by exact h2)]
      simp only [List.nil_append, List.singleton_append, List.filter_cons]
      rw [if_pos (by rw [scalarFieldOf]; rfl)]
      rw [List.map_cons]
      exact congrArg _ (deriveFieldsAux_scalar_part rest (m.label :: seen))
    · -- loop variant
      have hsc : isScalarType m = false := by
        simp only [isScalarType, Bool.or_eq_true, decide_eq_true_eq]
        simp only [Bool.or_eq_false_iff, decide_eq_false_iff_not]
        constructor
        · intro hcon
          exact h1 (Or.inl hcon)
        · intro hcon
          exact h1 (Or.inr hcon)
      rw [deriveFieldsAux_acc rest _ ([] ++ [loopFieldOf m]), hfc, if_neg (by simp [hsc])]
      simp only [List.nil_append, List.singleton_append, List.filter_cons]
      rw [if_neg (by rw [loopFieldOf]; simp)]
      exact deriveFieldsAux_scalar_part rest seen
    · -- unrecognized type: ignored
      have hsc : isScalarType m = false := by
        simp only [isScalarType, Bool.or_eq_false_iff, decide_eq_false_iff_not]
        constructor
        · intro hcon
          exact h1 (Or.inl hcon)
        · intro hcon
          exact h1 (Or.inr hcon)
      rw [hfc, if_neg (by simp [hsc])]
      exact deriveFieldsAux_scalar_part rest seen

theorem deriveFieldsAux_array_part : ∀ (ms : List RegMapping) (seen : List (List Char)),
    (deriveFieldsAux ms seen []).filter (fun f => f.sub_fields.isSome) =
      (ms.filter isLoopType).map loopFieldOf
  | [], seen => rfl
  | m :: rest, seen => by
    rw [deriveFieldsAux]
    have hfc : (m :: rest).filter isLoopType =
        if isLoopType m then m :: rest.filter isLoopType else rest.filter isLoopType :=
      List.filter_cons
    split_ifs with h1 h2 h3
    · have hlp : isLoopType m = false := by
        simp only [isLoopType, decide_eq_false_iff_not]
        intro hcon
        rcases h1 with h1 | h1 <;> (rw [hcon] at h1; revert h1; decide)
      rw [hfc, if_neg (by simp [hlp])]
      exact deriveFieldsAux_array_part rest seen
    · have hlp : isLoopType m = false := by
        simp only [isLoopType, decide_eq_false_iff_not]
        intro hcon
        rcases h1 with h1 | h1 <;> (rw [hcon] at h1; revert h1; decide)
      rw [deriveFieldsAux_acc rest _ ([] ++ [scalarFieldOf m]), hfc, if_neg (by simp [hlp])]
      simp only [List.nil_append, List.singleton_append, List.filter_cons]
      rw [if_neg (by rw [scalarFieldOf]; simp)]
      exact deriveFieldsAux_array_part rest (m.label :: seen)
    · have hlp : isLoopType m = true := by
        simp only [isLoopType, decide_eq_true_eq]
        exact h3
      rw [deriveFieldsAux_acc rest _ ([] ++ [loopFieldOf m]), hfc, if_pos hlp]
      simp only [List.nil_append, List.singleton_append, List.filter_cons]
      rw [if_pos (by rw [loopFieldOf]; rfl)]
      rw [List.map_cons]
      exact congrArg _ (deriveFieldsAux_array_part rest seen)
    · have hlp : isLoopType m = false := by
        simp only [isLoopType, decide_eq_false_iff_not]
        exact h3
      rw [hfc, if_neg (by simp [hlp])]
      exact deriveFieldsAux_array_part rest seen

/-! ### Materialization -/

theorem applyMappings_fst (doc : Doc) (mappings : List Mapping) :
    (applyMappings doc mappings).1 = true := rfl

theorem list_set_getD_self {α : Type} : ∀ (l : List α) (i : Nat) (d : α),
    l.set i (l.getD i d) = l
  | [], _, _ => rfl
  | x :: xs, 0, d => rfl
  | x :: xs, i + 1, d => by
    rw [List.getD_cons_succ, List.set_cons_succ, list_set_getD_self xs i d]

theorem applyMappings_para_not_found (doc : Doc) (idx : Nat) (orig label : List Char)
    (h : substrIdx orig (concatText (doc.paragraphs.getD idx [])) = none) :
    applyMappings doc [Mapping.para idx orig label] = (true, doc) := by
  obtain ⟨ps, ts⟩ := doc
  have hf1 : [Mapping.para idx orig label].filter isParaMapping =
      [Mapping.para idx orig label] := rfl
  have hf2 : [Mapping.para idx orig label].filter isCellMapping = [] := rfl
  have hf3 : [Mapping.para idx orig label].filter isLoopMapping = [] := rfl
  rw [applyMappings]
  rw [hf1, hf2, hf3]
  simp only [List.foldl_cons, List.foldl_nil]
  rw [applyParaMapping]
  by_cases hidx : idx < ps.length
  · rw [if_pos hidx]
    rw [show (Doc.mk ps ts).paragraphs = ps from rfl] at h ⊢
    rw [findAndReplace_none _ _ _ h, list_set_getD_self]
  · rw [if_neg hidx]

/-! ### Mapping validation -/

theorem mappingAccepted_iff (m : SubmittedMapping) :
    mappingAccepted m =
      ((requiredFieldNames (m.mapping_type.getD (str "paragraph"))).all (hasField m) &&
        recognizedVariant (m.mapping_type.getD (str "paragraph"))) := by
  rw [mappingAccepted, designerAccepts, serviceAccepts, requiredFieldNames, recognizedVariant]
  by_cases h1 : m.mapping_type.getD (str "paragraph") = str "paragraph"
  · rw [if_pos h1, if_pos h1, h1]
    simp [hasField, List.all, str, Bool.and_assoc]
  · rw [if_neg h1]
    by_cases h2 : m.mapping_type.getD (str "paragraph") = str "table_cell"
    · rw [if_pos h2, if_pos h2, h2]
      simp [hasField, List.all, str, Bool.and_assoc]
    · rw [if_neg h2]
      by_cases h3 : m.mapping_type.getD (str "paragraph") = str "table_loop"
      · rw [if_pos h3, if_pos h3, h3]
        simp [hasField, List.all, str, Bool.and_assoc]
      · rw [if_neg h3]
        simp [h1, h2, h3]

/-! ### Small indexing helpers for the claims -/

theorem getD_map_lt {α β : Type} (f : α → β) (l : List α) (p : Nat) (d : β) (d' : α)
    (h : p < l.length) : (l.map f).getD p d = f (l.getD p d') := by
  rw [List.getD_eq_getElem?_getD, List.getD_eq_getElem?_getD, List.getElem?_map,
    List.getElem?_eq_getElem h]
  rfl

theorem getD_mem_of_lt {α : Type} (l : List α) (j : Nat) (d : α) (h : j < l.length) :
    l.getD j d ∈ l := by
  rw [List.getD_eq_getElem?_getD, List.getElem?_eq_getElem h, Option.getD_some]
  exact List.getElem_mem h

/-! ## Claim theorems -/

/-- C1: for every run list and every non-empty `target_text` occurring in
the concatenation of the runs' texts (at leftmost offset `startOff`),
`_find_and_replace_in_paragraph` succeeds and rewrites exactly the
affected runs — the contiguous block `[a, li]` of runs whose half-open
offset intervals overlap the match span: if exactly one run overlaps
(`a = li`) its text becomes prefix ++ replacement ++ suffix; if several
overlap, run `a` becomes prefix ++ replacement, all runs strictly
between `a` and `li` are emptied, and run `li` becomes its post-match
suffix; every run outside `[a, li]` keeps its text, and no run's
formatting attributes change (`SubOut` states all of this). -/
theorem claim_C1 (runs : List Run) (target repl : List Char) (startOff : Nat)
    (ht : target ≠ []) (h : substrIdx target (concatText runs) = some startOff) :
    (findAndReplace runs target repl).1 = true ∧
    ∃ a li, a ≤ li ∧ li < runs.length ∧
      prefLen runs a ≤ startOff ∧ startOff < prefLen runs (a + 1) ∧
      prefLen runs li < startOff + target.length ∧
      startOff + target.length ≤ prefLen runs (li + 1) ∧
      (∀ j, j < runs.length → ((startOff < prefLen runs (j + 1) ∧
          prefLen runs j < startOff + target.length) ↔ (a ≤ j ∧ j ≤ li))) ∧
      SubOut runs target repl startOff a li (findAndReplace runs target repl).2 :=
  findAndReplace_char runs target repl startOff ht h

theorem claim_C1_witness :
    ((str "lo Wo") ≠ ([] : List Char) ∧
      substrIdx (str "lo Wo")
        (concatText [⟨str "Hello ", ⟨true, false, false, none, none⟩⟩,
          ⟨str "World", ⟨false, true, false, none, none⟩⟩]) = some 3) ∧
    ((findAndReplace [⟨str "Hello ", ⟨true, false, false, none, none⟩⟩,
        ⟨str "World", ⟨false, true, false, none, none⟩⟩] (str "lo Wo") (str "Q")).1 = true ∧
      ∃ a li, a ≤ li ∧
        li < ([⟨str "Hello ", ⟨true, false, false, none, none⟩⟩,
          ⟨str "World", ⟨false, true, false, none, none⟩⟩] : List Run).length ∧
        prefLen [⟨str "Hello ", ⟨true, false, false, none, none⟩⟩,
          ⟨str "World", ⟨false, true, false, none, none⟩⟩] a ≤ 3 ∧
        3 < prefLen [⟨str "Hello ", ⟨true, false, false, none, none⟩⟩,
          ⟨str "World", ⟨false, true, false, none, none⟩⟩] (a + 1) ∧
        prefLen [⟨str "Hello ", ⟨true, false, false, none, none⟩⟩,
          ⟨str "World", ⟨false, true, false, none, none⟩⟩] li < 3 + (str "lo Wo").length ∧
        3 + (str "lo Wo").length ≤ prefLen [⟨str "Hello ", ⟨true, false, false, none, none⟩⟩,
          ⟨str "World", ⟨false, true, false, none, none⟩⟩] (li + 1) ∧
        (∀ j, j < ([⟨str "Hello ", ⟨true, false, false, none, none⟩⟩,
            ⟨str "World", ⟨false, true, false, none, none⟩⟩] : List Run).length →
          ((3 < prefLen [⟨str "Hello ", ⟨true, false, false, none, none⟩⟩,
              ⟨str "World", ⟨false, true, false, none, none⟩⟩] (j + 1) ∧
            prefLen [⟨str "Hello ", ⟨true, false, false, none, none⟩⟩,
              ⟨str "World", ⟨false, true, false, none, none⟩⟩] j <
              3 + (str "lo Wo").length) ↔ (a ≤ j ∧ j ≤ li))) ∧
        SubOut [⟨str "Hello ", ⟨true, false, false, none, none⟩⟩,
            ⟨str "World", ⟨false, true, false, none, none⟩⟩] (str "lo Wo") (str "Q") 3 a li
          (findAndReplace [⟨str "Hello ", ⟨true, false, false, none, none⟩⟩,
            ⟨str "World", ⟨false, true, false, none, none⟩⟩] (str "lo Wo") (str "Q")).2) :=
  ⟨⟨by decide, by decide⟩,
    claim_C1 [⟨str "Hello ", ⟨true, false, false, none, none⟩⟩,
      ⟨str "World", ⟨false, true, false, none, none⟩⟩] (str "lo Wo") (str "Q") 3
      (by decide) (by decide)⟩

/-- C2: when the concatenated text contains a non-empty `target_text` at
two or more positions, substitution replaces only the leftmost
occurrence: the resulting concatenation is
`take s ++ replacement ++ drop (s + |target|)` where `s` is the least
offset at which `target` occurs; in particular, the paragraph
`"A-X-B-X"` with target `"X"` and replacement `"R"` ends as
`"A-R-B-X"`. -/
theorem claim_C2 :
    (∀ (runs : List Run) (target repl : List Char) (p1 p2 : Nat),
      target ≠ [] → p1 < p2 →
      target <+: (concatText runs).drop p1 → target <+: (concatText runs).drop p2 →
      ∃ s, substrIdx target (concatText runs) = some s ∧
        target <+: (concatText runs).drop s ∧
        (∀ q, q < s → ¬ target <+: (concatText runs).drop q) ∧
        concatText (findAndReplace runs target repl).2 =
          (concatText runs).take s ++ repl ++ (concatText runs).drop (s + target.length)) ∧
    concatText (findAndReplace [⟨str "A-X-B-X", ⟨false, false, false, none, none⟩⟩]
      (str "X") (str "R")).2 = str "A-R-B-X" := by
  constructor
  · intro runs target repl p1 p2 ht hp12 hocc1 _
    have hsome : (substrIdx target (concatText runs)).isSome :=
      substrIdx_isSome_iff.2 (infixTrans (infixOfPre hocc1)
        (infixOfSuf (List.drop_suffix p1 (concatText runs))))
    rcases hidx : substrIdx target (concatText runs) with _ | s
    · rw [hidx] at hsome
      exact absurd hsome (by simp)
    · obtain ⟨hleft1, hleft2⟩ := substrIdx_leftmost hidx
      exact ⟨s, rfl, hleft1, hleft2, findAndReplace_concat runs target repl s ht hidx⟩
  · decide

theorem claim_C2_witness :
    ∃ s, substrIdx (str "X")
        (concatText [⟨str "A-X-B-X", ⟨false, false, false, none, none⟩⟩]) = some s ∧
      (str "X") <+: (concatText [⟨str "A-X-B-X", ⟨false, false, false, none, none⟩⟩]).drop s ∧
      (∀ q, q < s →
        ¬ (str "X") <+:
          (concatText [⟨str "A-X-B-X", ⟨false, false, false, none, none⟩⟩]).drop q) ∧
      concatText (findAndReplace [⟨str "A-X-B-X", ⟨false, false, false, none, none⟩⟩]
          (str "X") (str "R")).2 =
        (concatText [⟨str "A-X-B-X", ⟨false, false, false, none, none⟩⟩]).take s ++
          (str "R") ++
          (concatText [⟨str "A-X-B-X", ⟨false, false, false, none, none⟩⟩]).drop
            (s + (str "X").length) :=
  claim_C2.1 [⟨str "A-X-B-X", ⟨false, false, false, none, none⟩⟩] (str "X") (str "R") 2 6
    (by decide) (by decide) (by decide) (by decide)

/-- C3: every substitution call that returns true changes the length of
the concatenation of the runs' texts from `L` to
`L - |target_text| + |replacement|`, both for a paragraph and for a
table cell (where the concatenation ranges over all the cell's
paragraphs' runs). -/
theorem claim_C3 :
    (∀ (runs : List Run) (target repl : List Char),
      (findAndReplace runs target repl).1 = true →
      (concatText (findAndReplace runs target repl).2).length =
        (concatText runs).length - target.length + repl.length) ∧
    (∀ (cell : Cell) (target repl : List Char),
      (findAndReplaceInCell cell target repl).1 = true →
      (cellConcatText (findAndReplaceInCell cell target repl).2).length =
        (cellConcatText cell).length - target.length + repl.length) :=
  ⟨fun runs target repl h => (findAndReplace_length runs target repl h).2,
   fun cell target repl h => (findAndReplaceInCell_length cell target repl h).2⟩

theorem claim_C3_witness :
    ((findAndReplace [⟨str "Hello ", ⟨true, false, false, none, none⟩⟩,
        ⟨str "World", ⟨false, true, false, none, none⟩⟩] (str "lo Wo") (str "Q")).1 = true ∧
      (concatText (findAndReplace [⟨str "Hello ", ⟨true, false, false, none, none⟩⟩,
          ⟨str "World", ⟨false, true, false, none, none⟩⟩] (str "lo Wo") (str "Q")).2).length =
        (concatText [⟨str "Hello ", ⟨true, false, false, none, none⟩⟩,
          ⟨str "World", ⟨false, true, false, none, none⟩⟩]).length -
          (str "lo Wo").length + (str "Q").length) :=
  ⟨by decide,
    claim_C3.1 [⟨str "Hello ", ⟨true, false, false, none, none⟩⟩,
      ⟨str "World", ⟨false, true, false, none, none⟩⟩] (str "lo Wo") (str "Q") (by decide)⟩

/-- C8: when `target_text` does not occur as a substring of the
concatenated run texts, `_find_and_replace_in_paragraph` returns false
and leaves the run list unchanged. -/
theorem claim_C8 (runs : List Run) (target repl : List Char)
    (h : ¬ target <:+: concatText runs) :
    findAndReplace runs target repl = (false, runs) := by
  apply findAndReplace_none
  rcases hidx : substrIdx target (concatText runs) with _ | k
  · rfl
  · exact absurd (substrIdx_isSome_iff.1 (by rw [hidx]; rfl)) h

theorem claim_C8_witness :
    (¬ (str "zz") <:+: concatText [⟨str "abc", ⟨false, false, false, none, none⟩⟩]) ∧
    findAndReplace [⟨str "abc", ⟨false, false, false, none, none⟩⟩] (str "zz") (str "R") =
      (false, [⟨str "abc", ⟨false, false, false, none, none⟩⟩]) :=
  ⟨by decide,
    claim_C8 [⟨str "abc", ⟨false, false, false, none, none⟩⟩] (str "zz") (str "R")
      (by decide)⟩

/-- C10: on a non-empty run list, calling the substitution with an empty
`target_text` returns false and changes nothing, even though the empty
string occurs in the concatenated text: with a zero-width match span
`[start, start)` no run's half-open interval strictly overlaps it, so
the affected-run list is empty and the function bails out. -/
theorem claim_C10 (runs : List Run) (repl : List Char) (h : runs ≠ []) :
    findAndReplace runs [] repl = (false, runs) :=
  findAndReplace_empty_target runs repl h

theorem claim_C10_witness :
    ([⟨str "abc", ⟨false, false, false, none, none⟩⟩] : List Run) ≠ [] ∧
    findAndReplace [⟨str "abc", ⟨false, false, false, none, none⟩⟩] [] (str "R") =
      (false, [⟨str "abc", ⟨false, false, false, none, none⟩⟩]) :=
  ⟨by decide,
    claim_C10 [⟨str "abc", ⟨false, false, false, none, none⟩⟩] (str "R") (by decide)⟩

/-- C4: for a valid template-row index and `N ≥ 1` items,
`expand_table_loops` leaves the table with exactly
`original_row_count − 1 + N` rows: the rows before the template row are
unchanged, the `N` substituted clones sit at the template row's
position in item order, the rows after it follow (shifted), and the
template row itself is gone; for `N = 0` the table is returned
completely unchanged, markers included. -/
theorem claim_C4 :
    (∀ (table : List LRow) (dri : Nat) (v : List Char) (cls : List CellLabel)
        (items : List Item), dri < table.length → items ≠ [] →
      (expandTableLoop table dri v cls items).length = table.length - 1 + items.length ∧
      (∀ i, i < dri → (expandTableLoop table dri v cls items).getD i [] = table.getD i []) ∧
      (∀ j, j < items.length → (expandTableLoop table dri v cls items).getD (dri + j) [] =
        expandRowForItem v cls (items.getD j (Item.scalar [])) (table.getD dri [])) ∧
      (∀ i, dri < i → i < table.length →
        (expandTableLoop table dri v cls items).getD (i - 1 + items.length) [] =
          table.getD i [])) ∧
    (∀ (table : List LRow) (dri : Nat) (v : List Char) (cls : List CellLabel),
      expandTableLoop table dri v cls [] = table) := by
  constructor
  · intro table dri v cls items hdri hne
    exact ⟨expandTableLoop_length table dri v cls items hne hdri,
      fun i hi => expandTableLoop_getD_before table dri v cls items hne hdri i hi,
      fun j hj => expandTableLoop_getD_inserted table dri v cls items hne hdri j hj,
      fun i hi1 hi2 => expandTableLoop_getD_after table dri v cls items hne hdri i hi1 hi2⟩
  · intro table dri v cls
    exact expandTableLoop_nil_items table dri v cls

theorem claim_C4_witness :
    (expandTableLoop [[str "head"], [str "tpl"], [str "tail"]] 1 (str "items")
        [⟨0, str "a", none, none⟩]
        [Item.scalar (str "s1"), Item.scalar (str "s2")]).length =
      ([[str "head"], [str "tpl"], [str "tail"]] : List LRow).length - 1 +
        ([Item.scalar (str "s1"), Item.scalar (str "s2")] : List Item).length ∧
    (∀ i, i < 1 →
      (expandTableLoop [[str "head"], [str "tpl"], [str "tail"]] 1 (str "items")
          [⟨0, str "a", none, none⟩]
          [Item.scalar (str "s1"), Item.scalar (str "s2")]).getD i [] =
        ([[str "head"], [str "tpl"], [str "tail"]] : List LRow).getD i []) ∧
    (∀ j, j < ([Item.scalar (str "s1"), Item.scalar (str "s2")] : List Item).length →
      (expandTableLoop [[str "head"], [str "tpl"], [str "tail"]] 1 (str "items")
          [⟨0, str "a", none, none⟩]
          [Item.scalar (str "s1"), Item.scalar (str "s2")]).getD (1 + j) [] =
        expandRowForItem (str "items") [⟨0, str "a", none, none⟩]
          ([Item.scalar (str "s1"), Item.scalar (str "s2")].getD j (Item.scalar []))
          (([[str "head"], [str "tpl"], [str "tail"]] : List LRow).getD 1 [])) ∧
    (∀ i, 1 < i → i < ([[str "head"], [str "tpl"], [str "tail"]] : List LRow).length →
      (expandTableLoop [[str "head"], [str "tpl"], [str "tail"]] 1 (str "items")
          [⟨0, str "a", none, none⟩]
          [Item.scalar (str "s1"), Item.scalar (str "s2")]).getD
          (i - 1 + ([Item.scalar (str "s1"), Item.scalar (str "s2")] : List Item).length) [] =
        ([[str "head"], [str "tpl"], [str "tail"]] : List LRow).getD i []) :=
  claim_C4.1 [[str "head"], [str "tpl"], [str "tail"]] 1 (str "items")
    [⟨0, str "a", none, none⟩] [Item.scalar (str "s1"), Item.scalar (str "s2")]
    (by decide) (by decide)

/-- C5 (amended): for each item, the cloned row's text leaves are
rewritten by applying, for each listed cell label in order, an
exhaustive left-to-right replace-all of the marker token
`__LOOP__<var>__<label>__` by the stringified value of `item[label]`
(the empty string when the label is absent; a non-dict item is first
coerced to `{"value": str(item)}`): replace-all substitutes at the
leftmost occurrence and rescans only the remainder, and leaves a
string without the token unchanged.  Consequently a leaf in which no
listed marker token occurs is left unchanged; and a leaf of the form
`x ++ marker ++ y` — the marker may sit inside surrounding text, as
when `apply_mappings_to_document` writes it into a cell's existing
text — in which that marker occurs only at that one position, in
which no other listed label's marker occurs, and for which no listed
marker occurs in `x ++ value ++ y`, becomes exactly `x ++ value ++ y`
and afterwards contains no listed marker.  The original unconditional
no-marker-left consequent is false without the last proviso: a value
may itself be or contain a listed marker (see the counterexample), and
replacement can even splice surrounding leaf text into a different
listed marker token. -/
theorem claim_C5 (table : List LRow) (dri : Nat) (v : List Char) (cls : List CellLabel)
    (items : List Item) (hdri : dri < table.length) (hne : items ≠ [])
    (j : Nat) (hj : j < items.length) (p : Nat) (hp : p < (table.getD dri []).length) :
    (∀ (M val s : List Char) (q0 : Nat), M ≠ [] → M <+: s.drop q0 →
      (∀ q, q < q0 → ¬ M <+: s.drop q) →
      replaceAll M val s = s.take q0 ++ val ++ replaceAll M val (s.drop (q0 + M.length))) ∧
    (∀ (M val s : List Char), ¬ M <:+: s → replaceAll M val s = s) ∧
    ((∀ cl ∈ cls, ¬ mkMarker v cl.label <:+: (table.getD dri []).getD p []) →
      ((expandTableLoop table dri v cls items).getD (dri + j) []).getD p [] =
        (table.getD dri []).getD p []) ∧
    (∀ cl ∈ cls, ∀ x y : List Char,
      (table.getD dri []).getD p [] = x ++ mkMarker v cl.label ++ y →
      (∀ q, q < ((table.getD dri []).getD p []).length → q ≠ x.length →
        ¬ mkMarker v cl.label <+: ((table.getD dri []).getD p []).drop q) →
      (∀ cl' ∈ cls, cl'.label ≠ cl.label →
        ¬ mkMarker v cl'.label <:+: (table.getD dri []).getD p []) →
      (∀ cl' ∈ cls, ¬ mkMarker v cl'.label <:+:
        (x ++ itemValue (normItem (items.getD j (Item.scalar []))) cl.label ++ y)) →
      ((expandTableLoop table dri v cls items).getD (dri + j) []).getD p [] =
          x ++ itemValue (normItem (items.getD j (Item.scalar []))) cl.label ++ y ∧
        ∀ cl' ∈ cls, ¬ mkMarker v cl'.label <:+:
          ((expandTableLoop table dri v cls items).getD (dri + j) []).getD p []) := by
  have houtleaf : ((expandTableLoop table dri v cls items).getD (dri + j) []).getD p [] =
      replaceMarkers v cls (normItem (items.getD j (Item.scalar [])))
        ((table.getD dri []).getD p []) := by
    rw [expandTableLoop_getD_inserted table dri v cls items hne hdri j hj,
      expandRowForItem, getD_map_lt _ _ p [] [] hp]
  refine ⟨fun M val s q0 hM hpre hleft => replaceAll_leftmost hM q0 s hpre hleft,
    fun M val s h => replaceAll_no_occur s h, ?_, ?_⟩
  · intro hfree
    rw [houtleaf]
    exact replaceMarkers_no_listed v cls _ _ hfree
  · intro cl hcl x y heq honly hothers hafter
    rw [heq] at honly hothers
    have hmain : ((expandTableLoop table dri v cls items).getD (dri + j) []).getD p [] =
        x ++ itemValue (normItem (items.getD j (Item.scalar []))) cl.label ++ y := by
      rw [houtleaf, heq]
      exact replaceMarkers_embedded v _ cls cl x y hcl honly hothers hafter
    exact ⟨hmain, fun cl' hcl' hcon => hafter cl' hcl' (hmain ▸ hcon)⟩

theorem claim_C5_witness :
    ((expandTableLoop
        [[str "h"], [str "Name: " ++ mkMarker (str "x") (str "a") ++ str "!"]]
        1 (str "x") [⟨0, str "a", none, none⟩]
        [Item.dict [(str "a", str "42")]]).getD (1 + 0) []).getD 0 [] =
      str "Name: " ++
        itemValue (normItem (([Item.dict [(str "a", str "42")]] : List Item).getD 0
            (Item.scalar [])))
          (CellLabel.label ⟨0, str "a", none, none⟩) ++ str "!" ∧
    ∀ cl' ∈ ([⟨0, str "a", none, none⟩] : List CellLabel),
      ¬ mkMarker (str "x") cl'.label <:+:
        ((expandTableLoop
            [[str "h"], [str "Name: " ++ mkMarker (str "x") (str "a") ++ str "!"]]
            1 (str "x") [⟨0, str "a", none, none⟩]
            [Item.dict [(str "a", str "42")]]).getD (1 + 0) []).getD 0 [] :=
  (claim_C5 [[str "h"], [str "Name: " ++ mkMarker (str "x") (str "a") ++ str "!"]]
      1 (str "x") [⟨0, str "a", none, none⟩] [Item.dict [(str "a", str "42")]]
      (by decide) (by decide) 0 (by decide) 0 (by decide)).2.2.2
    ⟨0, str "a", none, none⟩ (by decide) (str "Name: ") (str "!")
    (by decide) (by decide) (by decide) (by decide)

theorem claim_C5_counterexample :
    ((expandTableLoop [[str "h"], [mkMarker (str "x") (str "a")]] 1 (str "x")
        [⟨0, str "a", none, none⟩]
        [Item.dict [(str "a", mkMarker (str "x") (str "a"))]]).getD (1 + 0) []).getD 0 [] =
      mkMarker (str "x") (str "a") ∧
    mkMarker (str "x") (str "a") <:+: mkMarker (str "x") (str "a") := by
  have hrm : replaceMarkers (str "x") [⟨0, str "a", none, none⟩]
      [(str "a", mkMarker (str "x") (str "a"))] (mkMarker (str "x") (str "a")) =
      mkMarker (str "x") (str "a") := by
    rw [replaceMarkers, if_neg (mkMarker_ne_nil _ _)]
    show (if strContains (mkMarker (str "x") (str "a")) (mkMarker (str "x") (str "a")) then
        replaceAll (mkMarker (str "x") (str "a"))
          (itemValue [(str "a", mkMarker (str "x") (str "a"))] (str "a"))
          (mkMarker (str "x") (str "a"))
      else mkMarker (str "x") (str "a")) = mkMarker (str "x") (str "a")
    rw [if_pos (by decide), replaceAll_self (mkMarker_ne_nil _ _)]
    decide
  constructor
  · rw [expandTableLoop_getD_inserted _ _ _ _ _ (by decide) (by decide) 0 (by decide)]
    show replaceMarkers (str "x") [⟨0, str "a", none, none⟩]
        (normItem (Item.dict [(str "a", mkMarker (str "x") (str "a"))]))
        (mkMarker (str "x") (str "a")) = mkMarker (str "x") (str "a")
    exact hrm
  · exact List.infix_refl _

/-- C6 (amended): mapping validation accepts a submitted mapping exactly
when its variant tag is recognized and its variant-required fields are
all present; an empty `original_text` on a scalar variant and an empty
or duplicate-`col_index` `cell_labels` list on a loop variant are *not*
rejected (see the counterexample). -/
theorem claim_C6 (m : SubmittedMapping) :
    mappingAccepted m = true ↔
      ((requiredFieldNames (m.mapping_type.getD (str "paragraph"))).all (hasField m) = true ∧
        recognizedVariant (m.mapping_type.getD (str "paragraph")) = true) := by
  rw [mappingAccepted_iff, Bool.and_eq_true]

theorem claim_C6_counterexample :
    mappingAccepted ⟨some (str "paragraph"), some 0, none, none, none, none, none,
      some [], some (str "customer_name"), none⟩ = true ∧
    specRejects ⟨some (str "paragraph"), some 0, none, none, none, none, none,
      some [], some (str "customer_name"), none⟩ = true := by decide

/-- C7 (amended): `apply_mappings_to_document` returns only a single
overall flag that is `True` unconditionally; a per-mapping substitution
failure (`TextNotFound`, i.e. `original_text` absent from the target
paragraph) is silently discarded — the call returns the same success
flag and an unchanged document, with no per-mapping success/failure
report. -/
theorem claim_C7 :
    (∀ (doc : Doc) (mappings : List Mapping), (applyMappings doc mappings).1 = true) ∧
    (∀ (doc : Doc) (idx : Nat) (orig label : List Char),
      substrIdx orig (concatText (doc.paragraphs.getD idx [])) = none →
      applyMappings doc [Mapping.para idx orig label] = (true, doc)) :=
  ⟨applyMappings_fst, applyMappings_para_not_found⟩

theorem claim_C7_witness :
    substrIdx (str "QQQ")
      (concatText ((Doc.mk [[⟨str "World", ⟨true, false, false, none, none⟩⟩]]
        []).paragraphs.getD 0 [])) = none ∧
    applyMappings (Doc.mk [[⟨str "World", ⟨true, false, false, none, none⟩⟩]] [])
        [Mapping.para 0 (str "QQQ") (str "amount")] =
      (true, Doc.mk [[⟨str "World", ⟨true, false, false, none, none⟩⟩]] []) :=
  ⟨by decide,
    claim_C7.2 (Doc.mk [[⟨str "World", ⟨true, false, false, none, none⟩⟩]] [])
      0 (str "QQQ") (str "amount") (by decide)⟩

theorem claim_C7_counterexample :
    substrIdx (str "XYZ")
      (concatText ((Doc.mk [[⟨str "Hello", ⟨false, false, false, none, none⟩⟩]]
        []).paragraphs.getD 0 [])) = none ∧
    applyMappings (Doc.mk [[⟨str "Hello", ⟨false, false, false, none, none⟩⟩]] [])
        [Mapping.para 0 (str "XYZ") (str "nm")] =
      (true, Doc.mk [[⟨str "Hello", ⟨false, false, false, none, none⟩⟩]] []) :=
  ⟨by decide,
    applyMappings_para_not_found
      (Doc.mk [[⟨str "Hello", ⟨false, false, false, none, none⟩⟩]] [])
      0 (str "XYZ") (str "nm") (by decide)⟩

/-- C9: schema derivation emits, for scalar mappings, exactly one field
per label with first occurrence winning (the scalar part of the output
is the first-occurrence deduplication of the scalar mappings, in
registry order), and for every table-loop mapping one field of type
"array" named by `loop_variable` with `required` unconditionally true
and one sub-field per `cell_labels` entry in order. -/
theorem claim_C9 :
    (∀ ms : List RegMapping,
      (deriveFields ms).filter (fun f => f.sub_fields.isNone) =
        (dedupFirstByLabel (ms.filter isScalarType) []).map scalarFieldOf) ∧
    (∀ ms : List RegMapping,
      (deriveFields ms).filter (fun f => f.sub_fields.isSome) =
        (ms.filter isLoopType).map loopFieldOf) ∧
    (∀ m : RegMapping, (loopFieldOf m).name = m.loop_variable ∧
      (loopFieldOf m).ftype = str "array" ∧ (loopFieldOf m).required = true ∧
      (loopFieldOf m).sub_fields = some (m.cell_labels.map subFieldOf)) :=
  ⟨fun ms => deriveFieldsAux_scalar_part ms [],
   fun ms => deriveFieldsAux_array_part ms [],
   fun _ => ⟨rfl, rfl, rfl, rfl⟩⟩

end FlowPDF
